import Mathlib

/-!
# Verification of the pyDIWASP spectral-estimation core

Shallow embedding, over exact real/complex arithmetic, of the parts of the
pyDIWASP repository (dirspec.py, private/check_data.py, private/wavenumber.py,
the transfer-function library, and the five estimation methods DFTM, EMLM,
IMLM, EMEP, BDM) that the frozen claims talk about.

Conventions of the embedding:
* numpy float arrays become functions out of `Fin`-indexed types into ℝ or ℂ;
  machine floating point is idealized as exact real arithmetic, so there is no
  NaN and no infinity, and division by zero yields 0 (Lean's convention).
  Source branches that test for NaN/non-finite values are therefore dead in
  the embedding and are recorded in comments.
* numpy.linalg.inv raises LinAlgError on an exactly singular matrix; functions
  that call it are embedded as Except-valued, erroring exactly when some
  inverted matrix is singular and otherwise returning the rows computed with
  the mathematical inverse.
* Library solvers with no source in this repository (numpy.linalg.lstsq,
  numpy.linalg.solve and scipy.linalg.qr) are taken as explicit function
  parameters of the definitions that call them; theorems quantify over them.
* Unbounded Python while-loops are translated with an explicit fuel argument.
-/

open Finset Complex

noncomputable section

/-! ## WavenumberSolver: src/private/wavenumber.py (scalar case) -/

/-- The Newton-iteration while-loop of wavenumber.py (lines 24-32), state
(a1, da1, d1).  Each pass first recomputes the convergence flag d1 from the
previous step (line 26), then performs one Newton update on
f(a) = a0 - a tanh a.  Fuel models the unbounded while; the source has no
error or exception path, so when the loop exits it always yields a value. -/
def wavenumber_loop (a0 : ℝ) : ℕ → ℝ × ℝ × Bool → Option ℝ
  | 0, _ => none
  | fuel + 1, (a1, da1, d1) =>
    if d1 then
      let d1n : Bool := decide (|da1 / a1| > 1e-8)
      let th := Real.tanh a1
      let ch := Real.cosh a1
      let f1 := a0 - a1 * th
      let f2 := -a1 * (1 / ch) ^ 2 - th
      let da1n := -f1 / f2
      wavenumber_loop a0 fuel (a1 + da1n, da1n, d1n)
    else
      some a1

/-- wavenumber(sigma, h) from src/private/wavenumber.py: dispersion-relation
inversion by Newton-Raphson from a closed-form initial guess (lines 17-34).
The source performs no domain validation and contains no raise statement:
for sigma = 0 the float code propagates NaN and returns it; in the exact
model the same control flow returns 0.  Either way a value is returned. -/
def wavenumber (fuel : ℕ) (sigma h : ℝ) : Option ℝ :=
  let g : ℝ := 9.81
  let a0 := (sigma * sigma * h) / g
  let b1 := 1 / Real.tanh (a0 ^ (0.75 : ℝ))
  let a1 := a0 * b1 ^ ((0.666 : ℝ))
  (wavenumber_loop a0 fuel (a1, 1000, true)).map fun a => a / h

/-! ## Estimation-parameters validation: src/private/check_data.py, type 3 -/

/-- Python exception outcomes of check_data on an estimation-parameters
dict: an uncaught KeyError, or the validation-failure path that prints a
message and returns the empty structure. -/
inductive CheckFail where
  | keyErr : CheckFail
  | invalidField : CheckFail
deriving DecidableEq

/-- Input estimation-parameters dict (type 3 branch).  Numeric fields are
modelled already well-typed (the isinstance checks of the source can then
never set error), `none` meaning the key is absent. -/
structure EPin where
  dres : Option ℚ
  nfft : Option ℚ
  iter : Option ℚ
  smooth : Option String
  method : Option String

/-- Validated estimation-parameters structure.  nfft keeps `Option` because
the source default for a missing nfft is the empty list []. -/
structure EPout where
  dres : ℚ
  nfft : Option ℚ
  iter : ℚ
  smooth : String
  method : String
deriving DecidableEq

/-- check_data(DDS, 3) from src/private/check_data.py lines 116-163.
dres < 10 is clamped to 10 (warning only), nfft < 64 clamped to 64,
iter defaults to 100, smooth is forced to ON unless it upper-cases to OFF.
Lines 152-157 are translated literally: when the key method is ABSENT the
source evaluates DDS['method'].upper(), raising an uncaught KeyError; when
the key IS present (whatever its value) the else branch overwrites it with
the default 'IMLM'.  The membership test against the five method names is
unreachable: the KeyError fires first. -/
def check_data_EP (DDS : EPin) : Except CheckFail EPout :=
  let dres : ℚ := match DDS.dres with
    | some v => if v < 10 then 10 else v
    | none => 180
  let nfft : Option ℚ := match DDS.nfft with
    | some v => some (if v < 64 then 64 else v)
    | none => none
  let iter : ℚ := match DDS.iter with
    | some v => v
    | none => 100
  let smooth : String := match DDS.smooth with
    | some s => if s.toUpper ≠ ("OFF") then ("ON") else s
    | none => ("ON")
  match DDS.method with
  | none => .error CheckFail.keyErr
  | some _ => .ok (EPout.mk dres nfft iter smooth ("IMLM"))

/-! ## dirspec preprocessing: src/dirspec.py -/

/-- numpy round (round half to even), as applied by np.round in
dirspec.py line 95. -/
def npRound (x : ℝ) : ℤ :=
  if x - ⌊x⌋ = 1 / 2 then (if Even ⌊x⌋ then ⌊x⌋ else ⌊x⌋ + 1) else round x

/-- The transform length dirspec resolves (lines 94-98): when the
estimation parameters carry no nonempty nfft (the check_data default is the
empty list, both modelled by `none`), nfft = int(2 ** (8 + round(log2 fs)));
otherwise int(EP['nfft']).  int() of the exact nonnegative float power is its
floor. -/
def dirspec_nfft (ep_nfft : Option ℤ) (fs : ℝ) : ℤ :=
  match ep_nfft with
  | none => ⌊(2 : ℝ) ^ ((8 + npRound (Real.logb 2 fs) : ℤ))⌋
  | some n => n

/-- Lines 94-100 of dirspec.py: resolve nfft, then `if nfft > ndat: raise`.
The raise happens before the cross-power spectra, wavenumbers, transfer
functions and estimation method are computed (lines 102 onward), so an
oversized transform length aborts the run before any estimation work. -/
def dirspec_resolve_nfft (ep_nfft : Option ℤ) (fs : ℝ) (ndat : ℤ) :
    Except Unit ℤ :=
  let nfft := dirspec_nfft ep_nfft fs
  if ndat < nfft then .error () else .ok nfft

section Preproc

variable {szd nf nd : ℕ}

/-- dirspec.py lines 128-132: the per-sensor auto-spectrum estimate.
The trm array is allocated with real dtype (line 118), so np.max on line 132
is the plain (signed) maximum over the direction axis and np.conj is the
identity; the divisor is the square of that signed maximum. -/
def dirspec_Ss [NeZero nd] (xps : Fin szd → Fin szd → Fin nf → ℂ)
    (trm : Fin szd → Fin nf → Fin nd → ℝ) (m : Fin szd) (f : Fin nf) : ℂ :=
  let mx : ℝ := Finset.univ.sup' Finset.univ_nonempty (trm m f)
  xps m m f / ((mx : ℂ) * (starRingEnd ℂ) (mx : ℂ))

/-- The formula the claim states for Ss: the auto-spectrum divided by the
square of the maximum transfer-function MAGNITUDE over directions.  Written
from the claim's words, to be compared with dirspec_Ss. -/
def dirspec_Ss_claim [NeZero nd] (xps : Fin szd → Fin szd → Fin nf → ℂ)
    (trm : Fin szd → Fin nf → Fin nd → ℝ) (m : Fin szd) (f : Fin nf) : ℂ :=
  let mx : ℝ := Finset.univ.sup' Finset.univ_nonempty fun d => |trm m f d|
  xps m m f / ((mx ^ 2 : ℝ) : ℂ)

end Preproc

/-! ## TransferFunctionLibrary -/

section Transfer

variable {nf nd : ℕ}

/-- accz from src/private/accs.py lines 3-33: vertical-acceleration response
cosh(z k)/sinh(h k), floored at 0.1, times omega^2, broadcast over the
direction grid. -/
def accz (ffreqs : Fin nf → ℝ) (dirs : Fin nd → ℝ) (wns : Fin nf → ℝ)
    (z depth : ℝ) : Fin nf → Fin nd → ℝ :=
  fun f _d =>
    let Kz := Real.cosh (z * wns f) / Real.sinh (depth * wns f)
    let Kzf := if Kz < 0.1 then 0.1 else Kz
    ffreqs f * ffreqs f * Kzf

/-- accs from src/private/accs.py lines 36-61: surface acceleration, defined
in the source as accz evaluated with the sensor coordinate replaced by the
water depth. -/
def accs (ffreqs : Fin nf → ℝ) (dirs : Fin nd → ℝ) (wns : Fin nf → ℝ)
    (z depth : ℝ) : Fin nf → Fin nd → ℝ :=
  accz ffreqs dirs wns depth depth

/-- velz from src/private/velz.py: vertical-velocity response
-i omega sinh(z k)/sinh(h k), NaN set to 1 (dead in exact arithmetic,
where 0/0 = 0 instead of NaN), then floored at 0.1. -/
def velz (ffreqs : Fin nf → ℝ) (dirs : Fin nd → ℝ) (wns : Fin nf → ℝ)
    (z depth : ℝ) : Fin nf → Fin nd → ℂ :=
  fun f _d =>
    let Kz := Real.sinh (z * wns f) / Real.sinh (depth * wns f)
    let Kzf : ℝ := if Kz < 0.1 then 0.1 else Kz
    (-Complex.I) * ((ffreqs f * Kzf : ℝ) : ℂ)

/-- vels from src/pydiwasp/private/vels.py: surface velocity, defined in the
source as velz evaluated with the sensor coordinate replaced by the water
depth. -/
def vels (ffreqs : Fin nf → ℝ) (dirs : Fin nd → ℝ) (wns : Fin nf → ℝ)
    (z depth : ℝ) : Fin nf → Fin nd → ℂ :=
  velz ffreqs dirs wns depth depth

end Transfer

/-! ## EstimationMethod family: common pieces -/

section Methods

variable {szd nf nd : ℕ}

/-- ddir = 8*arctan(1)/ddirs, the direction-grid spacing constant used by
DFTM/EMLM/IMLM (equal to 2 pi over the number of directions). -/
def ddirR (nd : ℕ) : ℝ := 8 * Real.arctan 1 / nd

/-- The cross-spectrum slice xps[:, :, ff] as a matrix. -/
def xpsMat (xps : Fin szd → Fin szd → Fin nf → ℂ) (ff : Fin nf) :
    Matrix (Fin szd) (Fin szd) ℂ :=
  Matrix.of fun m n => xps m n ff

/-- The steering-vector double sum shared by DFTM/EMLM/IMLM:
sum over sensor pairs of w[m,n] * trm[n,ff,:] * conj(trm[m,ff,:])
* exp(1j * kx[m,n,ff,:]), with w the cross-spectrum slice (DFTM) or an
inverse matrix (EMLM/IMLM). -/
def steerSum (w : Fin szd → Fin szd → ℂ) (trm : Fin szd → Fin nf → Fin nd → ℂ)
    (kx : Fin szd → Fin szd → Fin nf → Fin nd → ℝ) (ff : Fin nf) (d : Fin nd) : ℂ :=
  ∑ m, ∑ n,
    w m n * trm n ff d * (starRingEnd ℂ) (trm m ff d) *
      Complex.exp (Complex.I * ((kx m n ff d : ℝ) : ℂ))

/-- Normalization in the multiplicative kappa form used by IMLM
(lines 45-46, 64-65, 69-70): v * (1 / (ddir * sum v)). -/
def normalizeK (nd' : ℕ) (v : Fin nd → ℂ) : Fin nd → ℂ :=
  fun d => v d * (1 / ((ddirR nd' : ℂ) * ∑ j, v j))

/-! ### DFTM: src/pydiwasp/private/DFTM.py -/

/-- The per-frequency weighted steering sum of DFTM (lines 49-58). -/
def DFTM_Sftmp (xps : Fin szd → Fin szd → Fin nf → ℂ)
    (trm : Fin szd → Fin nf → Fin nd → ℂ)
    (kx : Fin szd → Fin szd → Fin nf → Fin nd → ℝ) (ff : Fin nf) (d : Fin nd) : ℂ :=
  steerSum (fun m n => xps m n ff) trm kx ff d

/-- DFTM (lines 34-66): E = Sftmp normalized by ddir times its own integral,
row scaled by Ss[0, ff].  No matrix inversion, hence total. -/
def DFTM [NeZero szd] (xps : Fin szd → Fin szd → Fin nf → ℂ)
    (trm : Fin szd → Fin nf → Fin nd → ℂ)
    (kx : Fin szd → Fin szd → Fin nf → Fin nd → ℝ)
    (Ss : Fin szd → Fin nf → ℂ) (pidirs : Fin nd → ℝ) (miter displ : ℕ) :
    Fin nf → Fin nd → ℂ :=
  fun ff d =>
    let E := DFTM_Sftmp xps trm kx ff
    Ss 0 ff * (E d / ((ddirR nd : ℂ) * ∑ j, E j))

/-! ### EMLM: src/private/EMLM.py -/

/-- The un-normalized EMLM directional shape at one frequency
(lines 50-61): reciprocal of the steering sum weighted by the inverse
cross-spectrum matrix. -/
def EMLM_Eraw (xps : Fin szd → Fin szd → Fin nf → ℂ)
    (trm : Fin szd → Fin nf → Fin nd → ℂ)
    (kx : Fin szd → Fin szd → Fin nf → Fin nd → ℝ) (ff : Fin nf) : Fin nd → ℂ :=
  let invcps := (xpsMat xps ff)⁻¹
  fun d => 1 / steerSum (fun m n => invcps m n) trm kx ff d

open Classical in
/-- EMLM (lines 35-67).  numpy.linalg.inv on line 50 raises LinAlgError when
xps[:, :, ff] is exactly singular, aborting the whole call, so the run
succeeds exactly when every frequency slice is invertible; each returned row
is Ss[0, ff] times the shape normalized to unit directional integral
(lines 61-63). -/
def EMLM [NeZero szd] [NeZero nd] (xps : Fin szd → Fin szd → Fin nf → ℂ)
    (trm : Fin szd → Fin nf → Fin nd → ℂ)
    (kx : Fin szd → Fin szd → Fin nf → Fin nd → ℝ)
    (Ss : Fin szd → Fin nf → ℂ) (pidirs : Fin nd → ℝ) (miter displ : ℕ) :
    Except Unit (Fin nf → Fin nd → ℂ) :=
  if ∀ ff, IsUnit (xpsMat xps ff).det then
    .ok (fun ff d =>
      let E := EMLM_Eraw xps trm kx ff
      Ss 0 ff * (E d / ((ddirR nd : ℂ) * ∑ j, E j)))
  else .error ()

/-! ### IMLM: src/private/IMLM.py -/

/-- Htemp[:, m, n] (lines 31-35): steering kernel with exp(+1j kx). -/
def IMLM_Htemp (trm : Fin szd → Fin nf → Fin nd → ℂ)
    (kx : Fin szd → Fin szd → Fin nf → Fin nd → ℝ) (ff : Fin nf)
    (d : Fin nd) (m n : Fin szd) : ℂ :=
  trm n ff d * (starRingEnd ℂ) (trm m ff d) *
    Complex.exp (Complex.I * ((kx m n ff d : ℝ) : ℂ))

/-- iHtemp[:, m, n] (lines 34-36): steering kernel with exp(-1j kx). -/
def IMLM_iHtemp (trm : Fin szd → Fin nf → Fin nd → ℂ)
    (kx : Fin szd → Fin szd → Fin nf → Fin nd → ℝ) (ff : Fin nf)
    (d : Fin nd) (m n : Fin szd) : ℂ :=
  trm n ff d * (starRingEnd ℂ) (trm m ff d) *
    Complex.exp (-Complex.I * ((kx m n ff d : ℝ) : ℂ))

/-- The effective cross-spectrum matrix rebuilt from the current estimate E
(lines 51-54): ixps[m, n] = (sum over directions of iHtemp * E) * ddir. -/
def IMLM_ixps (trm : Fin szd → Fin nf → Fin nd → ℂ)
    (kx : Fin szd → Fin szd → Fin nf → Fin nd → ℝ) (ff : Fin nf)
    (E : Fin nd → ℂ) : Matrix (Fin szd) (Fin szd) ℂ :=
  Matrix.of fun m n => (∑ d, IMLM_iHtemp trm kx ff d m n * E d) * (ddirR nd : ℂ)

/-- One refinement step before the final renormalization (lines 51-68):
from state (E, T) compute the new candidate T' (itself renormalized,
lines 62-65) and the blended update E + gamma*((Eo - T') + alpha*(T' - T))
with gamma = alpha = 0.1.  Returns (blended E before renormalization, T'). -/
def IMLM_stepPre (Eo : Fin nd → ℂ) (trm : Fin szd → Fin nf → Fin nd → ℂ)
    (kx : Fin szd → Fin szd → Fin nf → Fin nd → ℝ) (ff : Fin nf)
    (s : (Fin nd → ℂ) × (Fin nd → ℂ)) : (Fin nd → ℂ) × (Fin nd → ℂ) :=
  let invcps := (IMLM_ixps trm kx ff s.1)⁻¹
  let T : Fin nd → ℂ :=
    normalizeK nd fun d => 1 / steerSum (fun m n => invcps m n) trm kx ff d
  (fun d => s.1 d + ((0.1 : ℝ) : ℂ) * ((Eo d - T d) + ((0.1 : ℝ) : ℂ) * (T d - s.2 d)), T)

/-- One full IMLM refinement step, ending with the renormalization of E
(lines 69-70). -/
def IMLM_step (Eo : Fin nd → ℂ) (trm : Fin szd → Fin nf → Fin nd → ℂ)
    (kx : Fin szd → Fin szd → Fin nf → Fin nd → ℝ) (ff : Fin nf)
    (s : (Fin nd → ℂ) × (Fin nd → ℂ)) : (Fin nd → ℂ) × (Fin nd → ℂ) :=
  let p := IMLM_stepPre Eo trm kx ff s
  (normalizeK nd p.1, p.2)

/-- The un-normalized EMLM initialization Eo of IMLM (lines 38-44), equal to
EMLM's shape. -/
def IMLM_EoRaw (xps : Fin szd → Fin szd → Fin nf → ℂ)
    (trm : Fin szd → Fin nf → Fin nd → ℂ)
    (kx : Fin szd → Fin szd → Fin nf → Fin nd → ℝ) (ff : Fin nf) : Fin nd → ℂ :=
  EMLM_Eraw xps trm kx ff

/-- The normalized initialization (lines 45-48): Eo *= kappa; E = T = Eo. -/
def IMLM_Eo (xps : Fin szd → Fin szd → Fin nf → ℂ)
    (trm : Fin szd → Fin nf → Fin nd → ℂ)
    (kx : Fin szd → Fin szd → Fin nf → Fin nd → ℝ) (ff : Fin nf) : Fin nd → ℂ :=
  normalizeK nd (IMLM_EoRaw xps trm kx ff)

/-- The E estimate after the configured number of refinement steps at one
frequency (the loop body runs exactly miter times; no convergence exit). -/
def IMLM_finalE (xps : Fin szd → Fin szd → Fin nf → ℂ)
    (trm : Fin szd → Fin nf → Fin nd → ℂ)
    (kx : Fin szd → Fin szd → Fin nf → Fin nd → ℝ) (miter : ℕ) (ff : Fin nf) :
    Fin nd → ℂ :=
  let Eo := IMLM_Eo xps trm kx ff
  ((IMLM_step Eo trm kx ff)^[miter] (Eo, Eo)).1

/-- The vector whose renormalization is the final E: Eo before its kappa
scaling when miter = 0, otherwise the blended update produced inside the
last refinement step. -/
def IMLM_preFinal (xps : Fin szd → Fin szd → Fin nf → ℂ)
    (trm : Fin szd → Fin nf → Fin nd → ℂ)
    (kx : Fin szd → Fin szd → Fin nf → Fin nd → ℝ) (miter : ℕ) (ff : Fin nf) :
    Fin nd → ℂ :=
  match miter with
  | 0 => IMLM_EoRaw xps trm kx ff
  | m + 1 =>
    let Eo := IMLM_Eo xps trm kx ff
    (IMLM_stepPre Eo trm kx ff ((IMLM_step Eo trm kx ff)^[m] (Eo, Eo))).1

/-- Success condition of an IMLM run: numpy.linalg.inv is applied to
xps[:, :, ff] (line 38) and then, at every one of the miter iterations, to
the rebuilt matrix ixps (line 55); a singular matrix at any point raises
LinAlgError and aborts the call. -/
def IMLM_ok (xps : Fin szd → Fin szd → Fin nf → ℂ)
    (trm : Fin szd → Fin nf → Fin nd → ℂ)
    (kx : Fin szd → Fin szd → Fin nf → Fin nd → ℝ) (miter : ℕ) : Prop :=
  (∀ ff, IsUnit (xpsMat xps ff).det) ∧
    ∀ ff : Fin nf, ∀ it < miter,
      IsUnit (IMLM_ixps trm kx ff
        (((IMLM_step (IMLM_Eo xps trm kx ff) trm kx ff)^[it]
          (IMLM_Eo xps trm kx ff, IMLM_Eo xps trm kx ff)).1)).det

open Classical in
/-- IMLM (src/private/IMLM.py): EMLM initialization then exactly miter
fixed-point refinement steps per frequency, each ending in renormalization;
rows scaled by Ss[0, ff] (line 74). -/
def IMLM [NeZero szd] [NeZero nd] (xps : Fin szd → Fin szd → Fin nf → ℂ)
    (trm : Fin szd → Fin nf → Fin nd → ℂ)
    (kx : Fin szd → Fin szd → Fin nf → Fin nd → ℝ)
    (Ss : Fin szd → Fin nf → ℂ) (pidirs : Fin nd → ℝ) (miter displ : ℕ) :
    Except Unit (Fin nf → Fin nd → ℂ) :=
  if IMLM_ok xps trm kx miter then
    .ok (fun ff d => Ss 0 ff * IMLM_finalE xps trm kx miter ff d)
  else .error ()

end Methods

/-! ## List/array helpers shared by EMEP and BDM -/

/-- Dot product of two equal-length coefficient lists (numpy @ on 1-d). -/
def listDot (a b : List ℝ) : ℝ := ((a.zip b).map fun p => p.1 * p.2).sum

/-- np.max of the absolute values of a coefficient vector (0 on empty). -/
def maxAbs (l : List ℝ) : ℝ := (l.map fun x => |x|).foldr max 0

/-- np.var (population variance) of a list. -/
def listVar (l : List ℝ) : ℝ :=
  let mu := l.sum / l.length
  ((l.map fun x => (x - mu) ^ 2).sum) / l.length

/-- np.std (population) of the first k entries of a vector. -/
def npStd (k : ℕ) (v : ℕ → ℝ) : ℝ :=
  let mu := (∑ i ∈ Finset.range k, v i) / k
  Real.sqrt ((∑ i ∈ Finset.range k, (v i - mu) ^ 2) / k)

/-- np.allclose on scalars (default rtol 1e-5, atol 1e-8), as applied to the
two leading steering entries in BDM line 76. -/
def npAllclose (a b : ℂ) : Prop :=
  Complex.abs (a - b) ≤ 1e-8 + 1e-5 * Complex.abs b

/-- The truncated Fourier series a1 . cos((i+1) theta) + b1 . sin((i+1) theta)
shared by EMEP's model evaluation (lines 106 and 188-189). -/
def fourierEval {nd : ℕ} (pidirs : Fin nd → ℝ) (a1 b1 : List ℝ) (d : Fin nd) : ℝ :=
  (((List.range a1.length).map fun i =>
    a1.getD i 0 * Real.cos (((i : ℝ) + 1) * pidirs d)).sum) +
  (((List.range b1.length).map fun i =>
    b1.getD i 0 * Real.sin (((i : ℝ) + 1) * pidirs d)).sum)

/-! ## EMEP: src/private/EMEP.py -/

section EMEPdef

variable {szd nf nd : ℕ}

open Classical in
/-- EMEP lines 40-68: the per-frequency observation rows (phi_j, H_j).
For each sensor pair m <= n the steering kernel Htemp =
trm[m] * conj(trm[n]) * exp(-1j kx[m,n]) contributes a co-spectrum row
(normalized by sigCo and Ss[0, ff]) whenever its first two direction entries
differ, and additionally a quadrature row (normalized by sigQuad) whenever
kx[m, n, 0, 0] + kx[m, n, 0, 1] is nonzero.  phi and H are real numpy
arrays, so storing the complex quotient keeps its real part. -/
def EMEP_rows [NeZero nf] [NeZero nd] (xps : Fin szd → Fin szd → Fin nf → ℂ)
    (trm : Fin szd → Fin nf → Fin nd → ℂ)
    (kx : Fin szd → Fin szd → Fin nf → Fin nd → ℝ)
    (Ss : Fin szd → Fin nf → ℂ) [NeZero szd] (ff : Fin nf) :
    List (ℝ × (Fin nd → ℝ)) :=
  (List.finRange szd).flatMap fun m =>
    ((List.finRange szd).filter fun n => m ≤ n).flatMap fun n =>
      let Htemp : Fin nd → ℂ := fun d =>
        trm m ff d * (starRingEnd ℂ) (trm n ff d) *
          Complex.exp (-Complex.I * ((kx m n ff d : ℝ) : ℂ))
      let Co := (xps m n ff).re
      let Quad := -(xps m n ff).im
      let xpsx := (xps m m ff).re * (xps n n ff).re
      let sigCo := Real.sqrt (0.5 * (xpsx + Co ^ 2 - Quad ^ 2))
      let sigQuad := Real.sqrt (0.5 * (xpsx - Co ^ 2 + Quad ^ 2))
      if Htemp 0 ≠ Htemp 1 then
        (((Co : ℂ) / ((sigCo : ℂ) * Ss 0 ff)).re,
          fun d => (Htemp d).re / sigCo) ::
        (if kx m n 0 0 + kx m n 0 1 ≠ 0 then
          [((((xps m n ff).im : ℂ) / ((sigQuad : ℂ) * Ss 0 ff)).re,
            fun d => (Htemp d).im / sigQuad)]
        else [])
      else []

/-- State of EMEP's inner coefficient iteration (lines 99-156): current
accepted coefficients a1, b1, latest least-squares update a2, b2, and the
latest X, Y, Z system (kept because lines 158-159 compute the AIC residual
from them after the loop).  bailed records the fully-relaxed break. -/
structure EMEPIter where
  a1 : List ℝ
  b1 : List ℝ
  a2 : List ℝ
  b2 : List ℝ
  X : List (List ℝ)
  Y : List (List ℝ)
  Z : List ℝ
  bailed : Bool

open Classical in
/-- EMEP's inner while-loop (lines 104-156) for model order n, fuel-bounded.
Per pass: evaluate the current log-model, assemble Z and the Jacobian-like
columns X, Y, least-squares solve (np.linalg.lstsq, abstracted as the lstsq
parameter; the NaN guard of solve_with_nan_handling is dead in exact
arithmetic), then either accept the relaxed update, or on divergence
(coefficient growth > 100 componentwise or count > miter) halve the
relaxation factor and restart from zero coefficients, bailing out once
rlx <= 0.0625. -/
def EMEP_inner (lstsq : List (List ℝ) → List ℝ → List ℝ)
    (Hi : List (Fin nd → ℝ)) (phi : List ℝ) (pidirs : Fin nd → ℝ)
    (miter n : ℕ) : ℕ → ℝ → ℕ → EMEPIter → EMEPIter
  | 0, _, _, st => st
  | fuel + 1, rlx, count, st =>
    if maxAbs st.a2 > 0.01 ∨ maxAbs st.b2 > 0.01 then
      let count1 := count + 1
      let M := phi.length
      let expFn : Fin nd → ℝ := fun d => Real.exp (fourierEval pidirs st.a1 st.b1 d)
      let sumExp := ∑ d, expFn d
      let phiD : ℕ → ℝ := fun j => phi.getD j 0
      let HiD : ℕ → Fin nd → ℝ := fun j => Hi.getD j fun _ => 0
      let PhiHF : ℕ → Fin nd → ℝ := fun j d => (phiD j - HiD j d) * expFn d
      let Z : ℕ → ℝ := fun j => (∑ d, PhiHF j d) / sumExp
      let Xf : ℕ → ℕ → ℝ := fun i j => Z j *
        ((∑ d, expFn d * Real.cos (((i : ℝ) + 1) * pidirs d)) / sumExp -
          (∑ d, PhiHF j d * Real.cos (((i : ℝ) + 1) * pidirs d)) / (∑ d, PhiHF j d))
      let Yf : ℕ → ℕ → ℝ := fun i j => Z j *
        ((∑ d, expFn d * Real.sin (((i : ℝ) + 1) * pidirs d)) / sumExp -
          (∑ d, PhiHF j d * Real.sin (((i : ℝ) + 1) * pidirs d)) / (∑ d, PhiHF j d))
      let C : List (List ℝ) := (List.range M).map fun j =>
        ((List.range n).map fun i => Xf i j) ++ ((List.range n).map fun i => Yf i j)
      let Zl := (List.range M).map Z
      let out := lstsq C Zl
      let a2n := out.take n
      let b2n := (out.drop n).take n
      let Xl := (List.range n).map fun i => (List.range M).map fun j => Xf i j
      let Yl := (List.range n).map fun i => (List.range M).map fun j => Yf i j
      let diverge :=
        ((a2n.zip st.a2).any fun p => decide (|p.1| - |p.2| > 100)) = true ∨
        ((b2n.zip st.b2).any fun p => decide (|p.1| - |p.2| > 100)) = true
      if diverge ∨ count1 > miter then
        if rlx > 0.0625 then
          EMEP_inner lstsq Hi phi pidirs miter n fuel (rlx * 0.5) 0
            (EMEPIter.mk (List.replicate n 0) (List.replicate n 0) a2n b2n Xl Yl Zl false)
        else
          EMEPIter.mk st.a1 st.b1 a2n b2n Xl Yl Zl true
      else
        EMEP_inner lstsq Hi phi pidirs miter n fuel rlx count1
          (EMEPIter.mk ((st.a1.zip a2n).map fun p => p.1 + rlx * p.2)
            ((st.b1.zip b2n).map fun p => p.1 + rlx * p.2) a2n b2n Xl Yl Zl false)
    else st

open Classical in
/-- EMEP's model-order search (lines 87-183): for n = 1, 2, ... up to
M // 2 + 1 run the inner iteration from zero coefficients, score the
residual with AIC = M (log(2 pi var) + 1) + 4 n + 2, and keep increasing the
order while the inner solve did not bail and the AIC improves; on stopping,
revert to the previous order's held coefficients (or to the zero/uniform
order-1 model), returning (a1, b1, best). -/
def EMEP_orderLoop (lstsq : List (List ℝ) → List ℝ → List ℝ)
    (Hi : List (Fin nd → ℝ)) (phi : List ℝ) (pidirs : Fin nd → ℝ)
    (miter : ℕ) : ℕ → ℕ → Option ℝ → List (List ℝ × List ℝ) →
      List ℝ × List ℝ × ℕ → List ℝ × List ℝ × ℕ
  | 0, _, _, _, cur => cur
  | fuel + 1, n, aicPrev, held, cur =>
    let M := phi.length
    if n ≤ M / 2 + 1 then
      let st0 := EMEPIter.mk (List.replicate n 0) (List.replicate n 0)
        (List.replicate n 100) (List.replicate n 100) [] [] [] false
      let r := EMEP_inner lstsq Hi phi pidirs miter n (5 * (miter + 2) + 5) 1 0 st0
      let err : ℕ → ℝ := fun j =>
        r.Z.getD j 0 - listDot r.a2 (r.X.map fun row => row.getD j 0) -
          listDot r.b2 (r.Y.map fun row => row.getD j 0)
      let aicN := M * (Real.log (2 * Real.pi * listVar ((List.range M).map err)) + 1) +
        4 * n + 2
      let keep := r.bailed = false ∧ ¬(1 < n ∧ aicPrev.elim False fun p => aicN > p)
      let held1 := held ++ [(r.a1, r.b1)]
      if keep then
        EMEP_orderLoop lstsq Hi phi pidirs miter fuel (n + 1) (some aicN) held1
          (r.a1, r.b1, n)
      else if 1 < n then
        ((held1.getD (n - 2) ([], [])).1, (held1.getD (n - 2) ([], [])).2, n - 1)
      else ([0], [0], 1)
    else cur

/-- The (a1, b1, best) triple EMEP settles on at frequency ff. -/
def EMEP_sol (lstsq : List (List ℝ) → List ℝ → List ℝ) [NeZero szd]
    [NeZero nf] [NeZero nd] (xps : Fin szd → Fin szd → Fin nf → ℂ)
    (trm : Fin szd → Fin nf → Fin nd → ℂ)
    (kx : Fin szd → Fin szd → Fin nf → Fin nd → ℝ)
    (Ss : Fin szd → Fin nf → ℂ) (pidirs : Fin nd → ℝ) (miter : ℕ)
    (ff : Fin nf) : List ℝ × List ℝ × ℕ :=
  let rows := EMEP_rows xps trm kx Ss ff
  let phi := rows.map Prod.fst
  EMEP_orderLoop lstsq (rows.map Prod.snd) phi pidirs miter
    (phi.length / 2 + 2) 1 none [] ([0], [0], 1)

/-- G = exp(best-order Fourier series) (line 188-189). -/
def EMEP_G (lstsq : List (List ℝ) → List ℝ → List ℝ) [NeZero szd]
    [NeZero nf] [NeZero nd] (xps : Fin szd → Fin szd → Fin nf → ℂ)
    (trm : Fin szd → Fin nf → Fin nd → ℂ)
    (kx : Fin szd → Fin szd → Fin nf → Fin nd → ℝ)
    (Ss : Fin szd → Fin nf → ℂ) (pidirs : Fin nd → ℝ) (miter : ℕ)
    (ff : Fin nf) : Fin nd → ℝ :=
  fun d =>
    let sol := EMEP_sol lstsq xps trm kx Ss pidirs miter ff
    Real.exp (fourierEval pidirs sol.1 sol.2.1 d)

/-- EMEP (src/private/EMEP.py lines 23-193).  The output array S is real;
line 191 stores Ss[0, ff] * SG into it, keeping the real part, with
SG = G / (sum(G) * ddir) and ddir = abs(pidirs[1] - pidirs[0]) (line 28). -/
def EMEP_S (lstsq : List (List ℝ) → List ℝ → List ℝ) [NeZero szd]
    [NeZero nf] [NeZero nd] (xps : Fin szd → Fin szd → Fin nf → ℂ)
    (trm : Fin szd → Fin nf → Fin nd → ℂ)
    (kx : Fin szd → Fin szd → Fin nf → Fin nd → ℝ)
    (Ss : Fin szd → Fin nf → ℂ) (pidirs : Fin nd → ℝ) (miter displ : ℕ) :
    Fin nf → Fin nd → ℝ :=
  fun ff d =>
    let G := EMEP_G lstsq xps trm kx Ss pidirs miter ff
    (Ss 0 ff).re * (G d / ((∑ j, G j) * |pidirs 1 - pidirs 0|))

end EMEPdef

/-! ## BDM: src/private/BDM.py -/

/-- The circulant second-difference roughness matrix dd (lines 90-92):
identity + (-2 on the first subdiagonal) + (1 on the second subdiagonal),
then the wrap-around corner entries dd[0, k-2] = 1, dd[0, k-1] = -2,
dd[1, k-1] = 1 overwritten. -/
def BDM_dd (k : ℕ) : ℕ → ℕ → ℝ := fun i j =>
  if i = 0 ∧ j = k - 2 then 1
  else if i = 0 ∧ j = k - 1 then -2
  else if i = 1 ∧ j = k - 1 then 1
  else (if i = j then 1 else 0) + (if j + 1 = i then -2 else 0) +
    (if j + 2 = i then 1 else 0)

section BDMdef

variable {szd nf nd : ℕ}

open Classical in
/-- BDM lines 58-84: the per-frequency observation rows (phi_j, H_j), like
EMEP's but with the outer product of the complex auto-spectrum diagonal
(stored into a real array, hence its real part), np.allclose instead of
exact inequality on the two leading steering entries, and steering kernel
trm[m] * conj(trm[n]) * exp(-1j kx[m,n]). -/
def BDM_rows [NeZero nf] [NeZero nd] (xps : Fin szd → Fin szd → Fin nf → ℂ)
    (trm : Fin szd → Fin nf → Fin nd → ℂ)
    (kx : Fin szd → Fin szd → Fin nf → Fin nd → ℝ)
    (Ss : Fin szd → Fin nf → ℂ) [NeZero szd] (ff : Fin nf) :
    List (ℝ × (Fin nd → ℝ)) :=
  (List.finRange szd).flatMap fun m =>
    ((List.finRange szd).filter fun n => m ≤ n).flatMap fun n =>
      let Htemp : Fin nd → ℂ := fun d =>
        trm m ff d * (starRingEnd ℂ) (trm n ff d) *
          Complex.exp (-Complex.I * ((kx m n ff d : ℝ) : ℂ))
      let Co := (xps m n ff).re
      let Quad := -(xps m n ff).im
      let xpsx := (xps m m ff * (starRingEnd ℂ) (xps n n ff)).re
      let sigCo := Real.sqrt (0.5 * (xpsx + Co ^ 2 - Quad ^ 2))
      let sigQuad := Real.sqrt (0.5 * (xpsx - Co ^ 2 + Quad ^ 2))
      if ¬ npAllclose (Htemp 0) (Htemp 1) then
        (((Co : ℂ) / ((sigCo : ℂ) * Ss 0 ff)).re,
          fun d => (Htemp d).re / sigCo) ::
        (if kx m n 0 0 + kx m n 0 1 ≠ 0 then
          [((((xps m n ff).im : ℂ) / ((sigQuad : ℂ) * Ss 0 ff)).re,
            fun d => (Htemp d).im / sigQuad)]
        else [])
      else []

end BDMdef

/-- State of BDM's inner relaxed solve (lines 115-181): current log-spectrum
x, the latest linearized system A2, B2, the latest solved upper-triangular
block TA (None until one pass has run; its diagonal feeds the ABIC), and the
fully-relaxed bail flag. -/
structure BDMIter where
  x : ℕ → ℝ
  A2 : ℕ → ℕ → ℝ
  B2 : ℕ → ℝ
  TA : Option (ℕ → ℕ → ℝ)
  bailed : Bool

open Classical in
/-- BDM's inner while-loop (lines 121-181) at one model index, fuel-bounded,
with k = nd directions, M observation rows and penalty weight u.  Per pass:
linearize around x, stack [A2 | B2] over [u dd | 0] into Z, take the R
factor of scipy.linalg.qr (abstracted as qrR), solve the leading k x k
triangular system (np.linalg.solve with lstsq fallback, abstracted as
solveLin), blend with relaxation rlx, and loop while np.std(x - x1)
exceeds 0.001; when count exceeds miter halve rlx and restart the count,
bailing out at rlx <= 0.0625.  The non-finite guards of the source are dead
in exact arithmetic. -/
def BDM_inner (qrR : ℕ → ℕ → (ℕ → ℕ → ℝ) → (ℕ → ℕ → ℝ))
    (solveLin : ℕ → (ℕ → ℕ → ℝ) → (ℕ → ℝ) → (ℕ → ℝ))
    (A : ℕ → ℕ → ℝ) (B : ℕ → ℝ) (M nd miter : ℕ) (u : ℝ) :
    ℕ → ℝ → ℕ → ℝ → BDMIter → BDMIter
  | 0, _, _, _, st => st
  | fuel + 1, rlx, count, stddiff, st =>
    if stddiff > 0.001 then
      let count1 := count + 1
      let F : ℕ → ℝ := fun c => Real.exp (st.x c)
      let A2 : ℕ → ℕ → ℝ := fun j c => A j c * F c
      let B2 : ℕ → ℝ := fun j =>
        B j - (∑ c ∈ Finset.range nd, A j c * F c) +
          (∑ c ∈ Finset.range nd, A j c * F c * st.x c)
      let Z : ℕ → ℕ → ℝ := fun r c =>
        if r < M then (if c < nd then A2 r c else B2 r)
        else (if c < nd then u * BDM_dd nd (r - M) c else 0)
      let U := qrR (M + nd) (nd + 1) Z
      let TA : ℕ → ℕ → ℝ := fun i j => U i j
      let Tb : ℕ → ℝ := fun i => U i nd
      let x1 := solveLin nd TA Tb
      let stddiff1 := npStd nd fun i => st.x i - x1 i
      let xn : ℕ → ℝ := fun i => (1 - rlx) * st.x i + rlx * x1 i
      if count1 > miter then
        if rlx > 0.0625 then
          BDM_inner qrR solveLin A B M nd miter u fuel (rlx * 0.5) 0 stddiff1
            (BDMIter.mk xn A2 B2 (some TA) false)
        else
          BDMIter.mk xn A2 B2 (some TA) true
      else
        BDM_inner qrR solveLin A B M nd miter u fuel rlx count1 stddiff1
          (BDMIter.mk xn A2 B2 (some TA) false)
    else st

open Classical in
/-- BDM's model-index loop (lines 104-207): n = 1 .. 6 with penalty weight
u = 0.5^n, each solved by BDM_inner from the uniform log-spectrum
log(1/(2 pi)); scored by ABIC = M (log(2 pi sig2) + 1) - k log(u^2)
+ sum(log(diag(TA)^2)).  Iteration stops when the ABIC worsens (reverting to
the previous model's x) or when the inner solve bailed at a model index
beyond the first; a bail at n = 1 does not stop the search (the source only
clears keepgoing when n > 1). -/
def BDM_orderLoop (qrR : ℕ → ℕ → (ℕ → ℕ → ℝ) → (ℕ → ℕ → ℝ))
    (solveLin : ℕ → (ℕ → ℕ → ℝ) → (ℕ → ℝ) → (ℕ → ℝ))
    (A : ℕ → ℕ → ℝ) (B : ℕ → ℝ) (M nd miter : ℕ) :
    ℕ → ℕ → Option ℝ → Option (ℕ → ℝ) → (ℕ → ℝ) → ℕ → ℝ
  | 0, _, _, _, xcur => xcur
  | fuel + 1, n, abicPrev, xold, xcur =>
    if n ≤ 6 then
      let u := (0.5 : ℝ) ^ n
      let st0 := BDMIter.mk (fun _ => Real.log (1 / (2 * Real.pi)))
        (fun _ _ => 0) (fun _ => 0) none false
      let st := BDM_inner qrR solveLin A B M nd miter u
        (5 * (miter + 2) + 5) 1 0 1 st0
      match st.TA with
      | some TA =>
        let sig2 := ((∑ j ∈ Finset.range M,
            ((∑ c ∈ Finset.range nd, st.A2 j c * st.x c) - st.B2 j) ^ 2) +
          u ^ 2 * (∑ i ∈ Finset.range nd,
            (∑ j ∈ Finset.range nd, BDM_dd nd i j * st.x j) ^ 2)) / M
        let abic := M * (Real.log (2 * Real.pi * sig2) + 1) -
          nd * Real.log (u * u) +
          ∑ i ∈ Finset.range nd, Real.log ((TA i i) ^ 2)
        let keep := ¬(st.bailed = true ∧ 1 < n) ∧
          ¬(1 < n ∧ abicPrev.elim False fun p => abic > p)
        if keep then
          BDM_orderLoop qrR solveLin A B M nd miter fuel (n + 1) (some abic)
            (some st.x) st.x
        else xold.getD st.x
      | none => xold.getD st.x
    else xcur

section BDMfull

variable {szd nf nd : ℕ}

/-- The log-spectrum BDM settles on at frequency ff (nd-entry vector,
ℕ-indexed). -/
def BDM_x (qrR : ℕ → ℕ → (ℕ → ℕ → ℝ) → (ℕ → ℕ → ℝ))
    (solveLin : ℕ → (ℕ → ℕ → ℝ) → (ℕ → ℝ) → (ℕ → ℝ)) [NeZero szd]
    [NeZero nf] [NeZero nd] (xps : Fin szd → Fin szd → Fin nf → ℂ)
    (trm : Fin szd → Fin nf → Fin nd → ℂ)
    (kx : Fin szd → Fin szd → Fin nf → Fin nd → ℝ)
    (Ss : Fin szd → Fin nf → ℂ) (pidirs : Fin nd → ℝ) (miter : ℕ)
    (ff : Fin nf) : ℕ → ℝ :=
  let rows := BDM_rows xps trm kx Ss ff
  let ddir := |pidirs 1 - pidirs 0|
  let A : ℕ → ℕ → ℝ := fun j c =>
    if h : c < nd then ((rows.getD j (0, fun _ => 0)).2 ⟨c, h⟩) * ddir else 0
  let B : ℕ → ℝ := fun j => (rows.getD j (0, fun _ => 0)).1
  BDM_orderLoop qrR solveLin A B rows.length nd miter 7 1 none none
    (fun _ => Real.log (1 / (2 * Real.pi)))

/-- G = exp(x) (line 212). -/
def BDM_G (qrR : ℕ → ℕ → (ℕ → ℕ → ℝ) → (ℕ → ℕ → ℝ))
    (solveLin : ℕ → (ℕ → ℕ → ℝ) → (ℕ → ℝ) → (ℕ → ℝ)) [NeZero szd]
    [NeZero nf] [NeZero nd] (xps : Fin szd → Fin szd → Fin nf → ℂ)
    (trm : Fin szd → Fin nf → Fin nd → ℂ)
    (kx : Fin szd → Fin szd → Fin nf → Fin nd → ℝ)
    (Ss : Fin szd → Fin nf → ℂ) (pidirs : Fin nd → ℝ) (miter : ℕ)
    (ff : Fin nf) : Fin nd → ℝ :=
  fun d => Real.exp (BDM_x qrR solveLin xps trm kx Ss pidirs miter ff d.val)

/-- The BDM spectrum rows (lines 209-214): SG = G / (sum(G) * ddir) with
ddir = abs(pidirs[1] - pidirs[0]) (line 41); S is a real numpy array, so
line 214 stores the real part of Ss[0, ff] * SG. -/
def BDM_S (qrR : ℕ → ℕ → (ℕ → ℕ → ℝ) → (ℕ → ℕ → ℝ))
    (solveLin : ℕ → (ℕ → ℕ → ℝ) → (ℕ → ℝ) → (ℕ → ℝ)) [NeZero szd]
    [NeZero nf] [NeZero nd] (xps : Fin szd → Fin szd → Fin nf → ℂ)
    (trm : Fin szd → Fin nf → Fin nd → ℂ)
    (kx : Fin szd → Fin szd → Fin nf → Fin nd → ℝ)
    (Ss : Fin szd → Fin nf → ℂ) (pidirs : Fin nd → ℝ) (miter displ : ℕ) :
    Fin nf → Fin nd → ℝ :=
  fun ff d =>
    let G := BDM_G qrR solveLin xps trm kx Ss pidirs miter ff
    (Ss 0 ff).re * (G d / ((∑ j, G j) * |pidirs 1 - pidirs 0|))

open Classical in
/-- BDM (src/private/BDM.py lines 5-218): emits a warning (first component,
lines 44-46) exactly when np.sum(kx) == 0 — the total sum over every entry
of the phase tensor, not a test that every entry is zero — and in every case
still computes and returns the spectrum (second component): the warning
never aborts. -/
def BDM (qrR : ℕ → ℕ → (ℕ → ℕ → ℝ) → (ℕ → ℕ → ℝ))
    (solveLin : ℕ → (ℕ → ℕ → ℝ) → (ℕ → ℝ) → (ℕ → ℝ)) [NeZero szd]
    [NeZero nf] [NeZero nd] (xps : Fin szd → Fin szd → Fin nf → ℂ)
    (trm : Fin szd → Fin nf → Fin nd → ℂ)
    (kx : Fin szd → Fin szd → Fin nf → Fin nd → ℝ)
    (Ss : Fin szd → Fin nf → ℂ) (pidirs : Fin nd → ℝ) (miter displ : ℕ) :
    Bool × (Fin nf → Fin nd → ℝ) :=
  (if (∑ m, ∑ n, ∑ ff, ∑ d, kx m n ff d) = (0 : ℝ) then true else false,
    BDM_S qrR solveLin xps trm kx Ss pidirs miter displ)

end BDMfull

/-! ## The dirspec clamp, line 145 -/

/-- The ordering numpy uses for ordered comparisons on complex128
(lexicographic: real part, then imaginary part), applied by the S < 0 test
of dirspec line 145 when the estimation method returned a complex array. -/
def cplxLt (z w : ℂ) : Prop := z.re < w.re ∨ (z.re = w.re ∧ z.im < w.im)

open Classical in
/-- dirspec.py line 145 on a complex spectrum array (DFTM/EMLM/IMLM return
complex128): entries that are NaN or compare below zero are set to zero.
The NaN disjunct is dead in exact arithmetic. -/
def dirspec_clampC {nf nd : ℕ} (S : Fin nf → Fin nd → ℂ) : Fin nf → Fin nd → ℂ :=
  fun f d => if cplxLt (S f d) 0 then 0 else S f d

open Classical in
/-- dirspec.py line 145 on a real spectrum array (EMEP/BDM return real
float64): entries that are NaN or negative are set to zero.  The NaN
disjunct is dead in exact arithmetic. -/
def dirspec_clampR {nf nd : ℕ} (S : Fin nf → Fin nd → ℝ) : Fin nf → Fin nd → ℝ :=
  fun f d => if S f d < 0 then 0 else S f d

end

/-! ## Concrete single-sensor test inputs used by the witnesses -/

noncomputable section

/-- One sensor, one frequency: unit cross spectrum. -/
def witXps : Fin 1 → Fin 1 → Fin 1 → ℂ := fun _ _ _ => 1

/-- Unit transfer functions over a two-point direction grid. -/
def witTrm : Fin 1 → Fin 1 → Fin 2 → ℂ := fun _ _ _ => 1

/-- Co-located sensor: zero phase tensor. -/
def witKx : Fin 1 → Fin 1 → Fin 1 → Fin 2 → ℝ := fun _ _ _ _ => 0

/-- Unit auto-spectrum anchor. -/
def witSs : Fin 1 → Fin 1 → ℂ := fun _ _ => 1

/-- The pipeline's uniform grid for dres = 2: linspace(-pi, pi - pi, 2). -/
def witPidirs : Fin 2 → ℝ := ![-Real.pi, 0]

/-- A placeholder for the abstracted numpy.linalg.lstsq. -/
def witLstsq : List (List ℝ) → List ℝ → List ℝ := fun _ _ => []

/-- A placeholder for the abstracted scipy.linalg.qr R factor. -/
def witQr : ℕ → ℕ → (ℕ → ℕ → ℝ) → (ℕ → ℕ → ℝ) := fun _ _ Z => Z

/-- A placeholder for the abstracted np.linalg.solve. -/
def witSolve : ℕ → (ℕ → ℕ → ℝ) → (ℕ → ℝ) → (ℕ → ℝ) := fun _ _ _ => fun _ => 0

/-- The row array a successful EMLM run returns at the witness input. -/
def witEMLMout : Fin 1 → Fin 2 → ℂ := fun ff d =>
  witSs 0 ff * (EMLM_Eraw witXps witTrm witKx ff d /
    (((ddirR 2 : ℝ) : ℂ) * ∑ j, EMLM_Eraw witXps witTrm witKx ff j))

/-- The row array a successful zero-iteration IMLM run returns at the
witness input. -/
def witIMLMout : Fin 1 → Fin 2 → ℂ := fun ff d =>
  witSs 0 ff * IMLM_finalE witXps witTrm witKx 0 ff d

end

/-! # Theorems -/

/-! ## C10: surface acceleration / velocity ignore the sensor z -/

/-- C10: the surface transfer functions accs and vels ignore the sensor z
coordinate passed to them: for every z they return exactly the array the
subsurface response (accz, velz) produces with the sensor depth replaced by
the water depth. -/
theorem c10_surface_transfer_ignores_z {nf nd : ℕ} (ffreqs : Fin nf → ℝ)
    (dirs : Fin nd → ℝ) (wns : Fin nf → ℝ) (z z' depth : ℝ) :
    accs ffreqs dirs wns z depth = accz ffreqs dirs wns depth depth ∧
    accs ffreqs dirs wns z depth = accs ffreqs dirs wns z' depth ∧
    vels ffreqs dirs wns z depth = velz ffreqs dirs wns depth depth ∧
    vels ffreqs dirs wns z depth = vels ffreqs dirs wns z' depth :=
  ⟨rfl, rfl, rfl, rfl⟩

/-! ## C2: check_data's method defaulting is inverted -/

/-- C2 (code_bug evidence): evaluating the embedded check_data estimation-
parameters branch shows the inverted logic of lines 152-157: a structure
naming the valid method EMLM comes back with method IMLM (the chosen name is
NOT preserved), and a structure without a method field raises KeyError
instead of defaulting to IMLM. -/
theorem c2_method_defaulting_inverted :
    check_data_EP (EPin.mk none none none none (some ("EMLM"))) =
      .ok (EPout.mk 180 none 100 ("ON") ("IMLM")) ∧
    check_data_EP (EPin.mk none none none none none) =
      .error CheckFail.keyErr :=
  ⟨rfl, rfl⟩

/-! ## wavenumber at the boundary of its domain -/

/-- With sigma = 0 the initial guess collapses to a0 = a1 = 0 and the loop
exits after one pass returning 0 (the float code returns NaN along the same
control path); no error is ever raised, since the source has no raise
statement. -/
theorem wavenumber_sigma_zero (h : ℝ) (k : ℕ) :
    wavenumber (k + 2) 0 h = some 0 := by
  have h0 : ((0 : ℝ) * 0 * h) / 9.81 = 0 := by ring
  have hrpow : ((0 : ℝ) ^ (0.75 : ℝ)) = 0 := by
    rw [Real.zero_rpow]; norm_num
  have hd : ((1000 : ℝ) / 0) = 0 := by simp
  simp only [wavenumber, h0, hrpow, Real.tanh_zero, div_zero, one_div,
    inv_zero, zero_mul, wavenumber_loop, if_true]
  have hdec : decide (|(1000 : ℝ) / (0 : ℝ)| > 1e-8) = false := by
    rw [decide_eq_false_iff_not]
    simp
    norm_num
  simp only [hdec, Real.tanh_zero, Real.cosh_zero, mul_zero, sub_zero,
    zero_mul, neg_zero, zero_div, zero_sub, zero_add, zero_pow, mul_one]
  simp [wavenumber_loop]

/-! ## C7: default transform length and the record-length guard -/

/-- C7: with no nonempty nfft in the estimation parameters the resolved
transform length is 2^(8 + round(log2 fs)) (numpy half-to-even rounding),
and — whatever nfft was resolved — the preprocessing stage fails if and only
if the transform length exceeds the number of samples, the failure being
raised before any cross-spectral or estimation work (dirspec lines 94-100
precede everything from line 102 on). -/
theorem c7_nfft_default_and_guard (fs : ℝ) (ndat : ℤ)
    (hexp : 0 ≤ 8 + npRound (Real.logb 2 fs)) :
    dirspec_nfft none fs = 2 ^ (8 + npRound (Real.logb 2 fs)).toNat ∧
    ∀ ep : Option ℤ,
      ((dirspec_resolve_nfft ep fs ndat).isOk = true ↔ dirspec_nfft ep fs ≤ ndat) := by
  constructor
  · show (⌊(2 : ℝ) ^ ((8 + npRound (Real.logb 2 fs) : ℤ))⌋ : ℤ) = _
    rw [show ((8 + npRound (Real.logb 2 fs) : ℤ)) =
      ((8 + npRound (Real.logb 2 fs)).toNat : ℤ) from
      (Int.toNat_of_nonneg hexp).symm]
    rw [zpow_natCast]
    rw [show ((2 : ℝ) ^ (8 + npRound (Real.logb 2 fs)).toNat) =
      (((2 : ℤ) ^ (8 + npRound (Real.logb 2 fs)).toNat : ℤ) : ℝ) by push_cast; ring]
    exact Int.floor_intCast _
  · intro ep
    unfold dirspec_resolve_nfft
    by_cases hlt : ndat < dirspec_nfft ep fs
    · simp only [hlt, if_true]
      constructor
      · intro hcontra
        exact absurd hcontra (by simp [Except.isOk, Except.toBool])
      · intro hle
        omega
    · simp only [hlt, if_false]
      constructor
      · intro _
        omega
      · intro _
        rfl

/-- C7 witness: fs = 4 Hz gives round(log2 4) = 2, hence nfft = 2^10 = 1024,
and with exactly 1024 samples the guard passes. -/
theorem c7_witness :
    0 ≤ 8 + npRound (Real.logb 2 4) ∧
    dirspec_nfft none 4 = 1024 ∧
    (dirspec_resolve_nfft none 4 1024).isOk = true := by
  have hlogb : Real.logb 2 4 = 2 := by
    rw [show (4 : ℝ) = 2 ^ (2 : ℕ) by norm_num, Real.logb_pow,
      Real.logb_self_eq_one (by norm_num)]
    norm_num
  have hround : npRound (Real.logb 2 4) = 2 := by
    rw [hlogb]
    unfold npRound
    norm_num
  have hexp : 0 ≤ 8 + npRound (Real.logb 2 4) := by rw [hround]; norm_num
  have hmain := c7_nfft_default_and_guard 4 1024 hexp
  refine ⟨hexp, ?_, ?_⟩
  · rw [hmain.1, hround]
    rfl
  · rw [(hmain.2 none)]
    rw [hmain.1, hround]
    rfl

/-! ## C8: the auto-spectrum divisor uses the signed maximum -/

/-- C8 counterexample: with a transfer row (-2, 1) the preprocessing divides
by the square of the signed maximum 1, not by the square of the maximum
magnitude 2, so dirspec's Ss differs from the claimed formula at this
concrete input. -/
theorem c8_counterexample_signed_max :
    dirspec_Ss ((fun _ _ _ => 1) : Fin 1 → Fin 1 → Fin 1 → ℂ)
      ((fun _ _ d => if d = 0 then -2 else 1) : Fin 1 → Fin 1 → Fin 2 → ℝ) 0 0 ≠
    dirspec_Ss_claim ((fun _ _ _ => 1) : Fin 1 → Fin 1 → Fin 1 → ℂ)
      ((fun _ _ d => if d = 0 then -2 else 1) : Fin 1 → Fin 1 → Fin 2 → ℝ) 0 0 := by
  have h1 : (Finset.univ.sup' Finset.univ_nonempty
      fun d : Fin 2 => if d = 0 then (-2 : ℝ) else 1) = 1 := by
    apply le_antisymm
    · apply Finset.sup'_le
      intro d _
      fin_cases d <;> norm_num
    · have := Finset.le_sup' (fun d : Fin 2 => if d = 0 then (-2 : ℝ) else 1)
        (Finset.mem_univ (1 : Fin 2))
      simpa using this
  have h2 : (Finset.univ.sup' Finset.univ_nonempty
      fun d : Fin 2 => |if d = 0 then (-2 : ℝ) else 1|) = 2 := by
    apply le_antisymm
    · apply Finset.sup'_le
      intro d _
      fin_cases d <;> simp
    · have := Finset.le_sup' (fun d : Fin 2 => |if d = 0 then (-2 : ℝ) else 1|)
        (Finset.mem_univ (0 : Fin 2))
      simpa using this
  simp only [dirspec_Ss, dirspec_Ss_claim, h1, h2]
  intro hcontra
  rw [Complex.conj_ofReal] at hcontra
  have := congrArg Complex.re hcontra
  norm_num at this

/-- C8 amended: Ss[m, f] is the auto-spectrum divided by the square of the
SIGNED maximum of the (real-stored) transfer row — the source takes np.max
without an absolute value and np.conj is the identity on the real array —
which agrees with the claimed maximum-magnitude formula exactly when the
transfer row is nonnegative. -/
theorem c8_amended_signed_max {szd nf nd : ℕ} [NeZero nd]
    (xps : Fin szd → Fin szd → Fin nf → ℂ)
    (trm : Fin szd → Fin nf → Fin nd → ℝ) (m : Fin szd) (f : Fin nf)
    (hpos : ∀ d, 0 ≤ trm m f d) :
    dirspec_Ss xps trm m f =
      xps m m f /
        (((Finset.univ.sup' Finset.univ_nonempty (trm m f)) ^ 2 : ℝ) : ℂ) ∧
    dirspec_Ss xps trm m f = dirspec_Ss_claim xps trm m f := by
  have hsq : ∀ mx : ℝ, ((mx : ℂ) * (starRingEnd ℂ) (mx : ℂ)) = ((mx ^ 2 : ℝ) : ℂ) := by
    intro mx
    rw [Complex.conj_ofReal]
    push_cast
    ring
  have habs : (fun d => |trm m f d|) = trm m f :=
    funext fun d => abs_of_nonneg (hpos d)
  constructor
  · simp only [dirspec_Ss, hsq]
  · simp only [dirspec_Ss, dirspec_Ss_claim, hsq, habs]

/-- C8 witness: the amended theorem applied to the all-ones transfer row,
where the signed maximum and the maximum magnitude coincide. -/
theorem c8_amended_witness :
    (∀ d : Fin 2, (0 : ℝ) ≤ 1) ∧
    dirspec_Ss ((fun _ _ _ => 1) : Fin 1 → Fin 1 → Fin 1 → ℂ)
        ((fun _ _ _ => 1) : Fin 1 → Fin 1 → Fin 2 → ℝ) 0 0 =
      dirspec_Ss_claim ((fun _ _ _ => 1) : Fin 1 → Fin 1 → Fin 1 → ℂ)
        ((fun _ _ _ => 1) : Fin 1 → Fin 1 → Fin 2 → ℝ) 0 0 :=
  ⟨fun _ => zero_le_one,
    (c8_amended_signed_max ((fun _ _ _ => 1) : Fin 1 → Fin 1 → Fin 1 → ℂ)
      ((fun _ _ _ => 1) : Fin 1 → Fin 1 → Fin 2 → ℝ) 0 0
      fun _ => zero_le_one).2⟩

/-! ## C3: IMLM with zero iterations is exactly EMLM -/

/-- C3: on every input tensor set, IMLM called with maxIterations = 0
returns exactly EMLM's output: the refinement loop body never runs, the
initialization is EMLM's normalized shape, and the two functions also agree
on the error outcome (both abort exactly when some frequency slice of xps
is singular). -/
theorem c3_imlm_zero_iterations_is_emlm {szd nf nd : ℕ} [NeZero szd]
    [NeZero nd] (xps : Fin szd → Fin szd → Fin nf → ℂ)
    (trm : Fin szd → Fin nf → Fin nd → ℂ)
    (kx : Fin szd → Fin szd → Fin nf → Fin nd → ℝ)
    (Ss : Fin szd → Fin nf → ℂ) (pidirs : Fin nd → ℝ) (displ : ℕ) :
    IMLM xps trm kx Ss pidirs 0 displ = EMLM xps trm kx Ss pidirs 0 displ := by
  unfold IMLM EMLM
  by_cases hP : ∀ ff, IsUnit (xpsMat xps ff).det
  · have hQ : IMLM_ok xps trm kx 0 :=
      ⟨hP, fun ff it hit => absurd hit (Nat.not_lt_zero it)⟩
    rw [if_pos hQ, if_pos hP]
    congr 1
    funext ff d
    congr 1
    simp only [IMLM_finalE, Function.iterate_zero, id_eq]
    show IMLM_Eo xps trm kx ff d = _
    unfold IMLM_Eo normalizeK IMLM_EoRaw
    rw [mul_one_div]
  · have hQ : ¬ IMLM_ok xps trm kx 0 := fun h => hP h.1
    rw [if_neg hQ, if_neg hP]

/-! ## C4: a singular cross-spectrum matrix aborts EMLM/IMLM -/

/-- C4 counterexample: at the concrete all-ones (hence singular) 2-sensor
cross spectrum, EMLM does not produce an output row — numpy.linalg.inv
raises LinAlgError and the call aborts with an error. -/
theorem c4_counterexample_singular_aborts :
    EMLM ((fun _ _ _ => 1) : Fin 2 → Fin 2 → Fin 1 → ℂ)
      ((fun _ _ _ => 1) : Fin 2 → Fin 1 → Fin 1 → ℂ)
      ((fun _ _ _ _ => 0) : Fin 2 → Fin 2 → Fin 1 → Fin 1 → ℝ)
      ((fun _ _ => 1) : Fin 2 → Fin 1 → ℂ)
      ((fun _ => 0) : Fin 1 → ℝ) 0 0 = .error () := by
  unfold EMLM
  rw [if_neg]
  intro hcontra
  have hunit := hcontra 0
  have hdet : (xpsMat ((fun _ _ _ => 1) : Fin 2 → Fin 2 → Fin 1 → ℂ) 0).det = 0 := by
    rw [Matrix.det_fin_two]
    simp [xpsMat]
  rw [hdet] at hunit
  exact not_isUnit_zero hunit

/-- C4 amended: EMLM and IMLM call the strict numpy.linalg.inv, which raises
LinAlgError on an exactly singular matrix; a singular cross-spectrum slice
at any frequency therefore aborts the whole method call instead of being
recovered with a generalized (least-squares) inverse — no pinv/lstsq
fallback exists in either function. -/
theorem c4_amended_singular_raises {szd nf nd : ℕ} [NeZero szd] [NeZero nd]
    (xps : Fin szd → Fin szd → Fin nf → ℂ)
    (trm : Fin szd → Fin nf → Fin nd → ℂ)
    (kx : Fin szd → Fin szd → Fin nf → Fin nd → ℝ)
    (Ss : Fin szd → Fin nf → ℂ) (pidirs : Fin nd → ℝ) (miter displ : ℕ)
    (hsing : ∃ ff, ¬ IsUnit (xpsMat xps ff).det) :
    EMLM xps trm kx Ss pidirs miter displ = .error () ∧
    IMLM xps trm kx Ss pidirs miter displ = .error () := by
  obtain ⟨ff, hff⟩ := hsing
  constructor
  · unfold EMLM
    rw [if_neg]
    intro h
    exact hff (h ff)
  · unfold IMLM
    rw [if_neg]
    intro h
    exact hff (h.1 ff)

/-- C4 witness: the amended theorem applied at the concrete singular
all-ones cross spectrum, with nonzero iteration count. -/
theorem c4_amended_witness :
    IMLM ((fun _ _ _ => 1) : Fin 2 → Fin 2 → Fin 1 → ℂ)
      ((fun _ _ _ => 1) : Fin 2 → Fin 1 → Fin 1 → ℂ)
      ((fun _ _ _ _ => 0) : Fin 2 → Fin 2 → Fin 1 → Fin 1 → ℝ)
      ((fun _ _ => 1) : Fin 2 → Fin 1 → ℂ)
      ((fun _ => 0) : Fin 1 → ℝ) 3 1 = .error () := by
  have hdet : (xpsMat ((fun _ _ _ => 1) : Fin 2 → Fin 2 → Fin 1 → ℂ) 0).det = 0 := by
    rw [Matrix.det_fin_two]
    simp [xpsMat]
  exact (c4_amended_singular_raises _ _ _ _ _ 3 1
    ⟨0, by rw [hdet]; exact not_isUnit_zero⟩).2

/-! ## C9: the BDM warning tests the total sum of kx, not all-zero -/

/-- C9 counterexample: a phase tensor with entries +1 and -1 (not entirely
zero) still sums to zero, so BDM emits the warning at this input even though
kx is not the all-zero tensor. -/
theorem c9_counterexample_cancelling_kx :
    (BDM (fun _ _ Z => Z) (fun _ _ _ => fun _ => 0)
      ((fun _ _ _ => 1) : Fin 2 → Fin 2 → Fin 1 → ℂ)
      ((fun _ _ _ => 1) : Fin 2 → Fin 1 → Fin 2 → ℂ)
      ((fun m n _ d => if m = 0 ∧ n = 1 ∧ d = 0 then 1
        else if m = 1 ∧ n = 0 ∧ d = 0 then -1 else 0) :
        Fin 2 → Fin 2 → Fin 1 → Fin 2 → ℝ)
      ((fun _ _ => 1) : Fin 2 → Fin 1 → ℂ)
      ((fun _ => 0) : Fin 2 → ℝ) 1 0).1 = true ∧
    ((fun m n _ d => if m = 0 ∧ n = 1 ∧ d = 0 then 1
        else if m = 1 ∧ n = 0 ∧ d = 0 then -1 else 0) :
        Fin 2 → Fin 2 → Fin 1 → Fin 2 → ℝ) 0 1 0 0 ≠ 0 := by
  constructor
  · simp only [BDM]
    rw [if_pos]
    simp [Fin.sum_univ_two, Fin.sum_univ_one]
  · norm_num

/-- C9 amended: BDM emits its non-fatal warning exactly when the TOTAL SUM
np.sum(kx) of the phase tensor is zero — which holds when kx is entirely
zero but also for any cancelling tensor, in particular the antisymmetric kx
the pipeline always builds — and in either case still computes and returns
the spectrum unchanged. -/
theorem c9_amended_warning_iff_sum_zero {szd nf nd : ℕ} [NeZero szd]
    [NeZero nf] [NeZero nd] (qrR : ℕ → ℕ → (ℕ → ℕ → ℝ) → (ℕ → ℕ → ℝ))
    (solveLin : ℕ → (ℕ → ℕ → ℝ) → (ℕ → ℝ) → (ℕ → ℝ))
    (xps : Fin szd → Fin szd → Fin nf → ℂ)
    (trm : Fin szd → Fin nf → Fin nd → ℂ)
    (kx : Fin szd → Fin szd → Fin nf → Fin nd → ℝ)
    (Ss : Fin szd → Fin nf → ℂ) (pidirs : Fin nd → ℝ) (miter displ : ℕ) :
    ((BDM qrR solveLin xps trm kx Ss pidirs miter displ).1 = true ↔
      (∑ m, ∑ n, ∑ ff, ∑ d, kx m n ff d) = 0) ∧
    (BDM qrR solveLin xps trm kx Ss pidirs miter displ).2 =
      BDM_S qrR solveLin xps trm kx Ss pidirs miter displ := by
  refine ⟨?_, rfl⟩
  simp only [BDM]
  split_ifs with h
  · simpa using h
  · simpa using h

/-! ## C1: the normalization invariant -/

/-- 8 arctan(1) / ddirs is 2 pi over the number of directions. -/
theorem ddirR_eq_two_pi_div (nd : ℕ) : ddirR nd = 2 * Real.pi / nd := by
  unfold ddirR
  rw [Real.arctan_one]
  ring

/-- Summing a row scaled by S and normalized by c * (its own sum) gives back
S, as long as the normalizing denominator is nonzero. -/
theorem normalize_sum_div {nd : ℕ} (v : Fin nd → ℂ) (c S : ℂ)
    (h : c * ∑ j, v j ≠ 0) :
    c * ∑ d, S * (v d / (c * ∑ j, v j)) = S := by
  have hc : c ≠ 0 := left_ne_zero_of_mul h
  have hT : (∑ j, v j) ≠ 0 := right_ne_zero_of_mul h
  rw [show (∑ d, S * (v d / (c * ∑ j, v j))) =
    S * ((∑ j, v j) / (c * ∑ j, v j)) by
      rw [← Finset.mul_sum, ← Finset.sum_div]]
  field_simp
  ring

/-- Real version, with the denominator written (sum v) * c as in EMEP/BDM. -/
theorem normalize_sum_div_real {nd : ℕ} (v : Fin nd → ℝ) (c S : ℝ)
    (h : (∑ j, v j) * c ≠ 0) :
    c * ∑ d, S * (v d / ((∑ j, v j) * c)) = S := by
  have hT : (∑ j, v j) ≠ 0 := left_ne_zero_of_mul h
  have hc : c ≠ 0 := right_ne_zero_of_mul h
  rw [show (∑ d, S * (v d / ((∑ j, v j) * c))) =
    S * ((∑ j, v j) / ((∑ j, v j) * c)) by
      rw [← Finset.mul_sum, ← Finset.sum_div]]
  field_simp
  ring

/-- The final IMLM estimate is always the renormalization of the pre-final
vector: of the raw EMLM shape when miter = 0, else of the blended update
inside the last refinement step. -/
theorem IMLM_finalE_eq_normalize {szd nf nd : ℕ}
    (xps : Fin szd → Fin szd → Fin nf → ℂ)
    (trm : Fin szd → Fin nf → Fin nd → ℂ)
    (kx : Fin szd → Fin szd → Fin nf → Fin nd → ℝ) (miter : ℕ) (ff : Fin nf) :
    IMLM_finalE xps trm kx miter ff =
      normalizeK nd (IMLM_preFinal xps trm kx miter ff) := by
  cases miter with
  | zero => rfl
  | succ m =>
    show ((IMLM_step (IMLM_Eo xps trm kx ff) trm kx ff)^[m + 1]
      (IMLM_Eo xps trm kx ff, IMLM_Eo xps trm kx ff)).1 = _
    rw [Function.iterate_succ_apply']
    rfl

/-- C1: for every estimation method and every frequency of its input the
returned spectrum row integrates back to the anchor auto-spectrum:
(2 pi / ddirs) * sum_d S[f, d] = Ss[0, f].  For DFTM/EMLM/IMLM this is
exact whenever the normalizing denominator is nonzero (in floating point a
zero denominator only produces non-finite values, absorbed later by the
clamp); for EMLM/IMLM the rows quantified are those of a successful run.
EMEP and BDM normalize by abs(pidirs[1] - pidirs[0]), equal to 2 pi / ddirs
on the pipeline's uniform full-circle grid, and their real output rows carry
the real part of Ss[0, f], so the invariant holds whenever Ss[0, f] is real;
their exp-of-log-model shape makes the denominator automatically positive,
for every behaviour of the abstracted library solvers. -/
theorem c1_normalization_invariant {szd nf nd : ℕ} [NeZero szd] [NeZero nf]
    [NeZero nd] (xps : Fin szd → Fin szd → Fin nf → ℂ)
    (trm : Fin szd → Fin nf → Fin nd → ℂ)
    (kx : Fin szd → Fin szd → Fin nf → Fin nd → ℝ)
    (Ss : Fin szd → Fin nf → ℂ) (pidirs : Fin nd → ℝ) (miter displ : ℕ)
    (lstsq : List (List ℝ) → List ℝ → List ℝ)
    (qrR : ℕ → ℕ → (ℕ → ℕ → ℝ) → (ℕ → ℕ → ℝ))
    (solveLin : ℕ → (ℕ → ℕ → ℝ) → (ℕ → ℝ) → (ℕ → ℝ)) :
    (∀ ff : Fin nf,
      ((2 * Real.pi / (nd : ℝ) : ℝ) : ℂ) * ∑ d, DFTM_Sftmp xps trm kx ff d ≠ 0 →
      ((2 * Real.pi / (nd : ℝ) : ℝ) : ℂ) *
        ∑ d, DFTM xps trm kx Ss pidirs miter displ ff d = Ss 0 ff) ∧
    (∀ S, EMLM xps trm kx Ss pidirs miter displ = Except.ok S →
      ∀ ff : Fin nf,
        ((2 * Real.pi / (nd : ℝ) : ℝ) : ℂ) * ∑ d, EMLM_Eraw xps trm kx ff d ≠ 0 →
        ((2 * Real.pi / (nd : ℝ) : ℝ) : ℂ) * ∑ d, S ff d = Ss 0 ff) ∧
    (∀ S, IMLM xps trm kx Ss pidirs miter displ = Except.ok S →
      ∀ ff : Fin nf,
        ((2 * Real.pi / (nd : ℝ) : ℝ) : ℂ) *
          ∑ d, IMLM_preFinal xps trm kx miter ff d ≠ 0 →
        ((2 * Real.pi / (nd : ℝ) : ℝ) : ℂ) * ∑ d, S ff d = Ss 0 ff) ∧
    (∀ ff : Fin nf, |pidirs 1 - pidirs 0| = 2 * Real.pi / (nd : ℝ) →
      (Ss 0 ff).im = 0 →
      (((2 * Real.pi / (nd : ℝ)) *
        ∑ d, EMEP_S lstsq xps trm kx Ss pidirs miter displ ff d : ℝ) : ℂ) =
        Ss 0 ff) ∧
    (∀ ff : Fin nf, |pidirs 1 - pidirs 0| = 2 * Real.pi / (nd : ℝ) →
      (Ss 0 ff).im = 0 →
      (((2 * Real.pi / (nd : ℝ)) *
        ∑ d, BDM_S qrR solveLin xps trm kx Ss pidirs miter displ ff d : ℝ) : ℂ) =
        Ss 0 ff) := by
  have hdd : ((ddirR nd : ℝ) : ℂ) = ((2 * Real.pi / (nd : ℝ) : ℝ) : ℂ) := by
    rw [ddirR_eq_two_pi_div]
  have hnd : (0 : ℝ) < (nd : ℝ) :=
    Nat.cast_pos.mpr (Nat.pos_of_ne_zero (NeZero.ne nd))
  have hcpos : 0 < 2 * Real.pi / (nd : ℝ) := by positivity
  refine ⟨?_, ?_, ?_, ?_, ?_⟩
  · intro ff hD
    simp only [DFTM]
    rw [hdd]
    exact normalize_sum_div _ _ _ hD
  · intro S hok ff hE
    have hrows : S = fun ff d =>
        Ss 0 ff * (EMLM_Eraw xps trm kx ff d /
          (((ddirR nd : ℝ) : ℂ) * ∑ j, EMLM_Eraw xps trm kx ff j)) := by
      unfold EMLM at hok
      split at hok
      · exact (Except.ok.inj hok).symm
      · simp at hok
    rw [hrows]
    rw [hdd]
    exact normalize_sum_div _ _ _ hE
  · intro S hok ff hpre
    have hrows : S = fun ff d => Ss 0 ff * IMLM_finalE xps trm kx miter ff d := by
      unfold IMLM at hok
      split at hok
      · exact (Except.ok.inj hok).symm
      · simp at hok
    rw [hrows]
    simp only [IMLM_finalE_eq_normalize, normalizeK, mul_one_div]
    rw [hdd]
    exact normalize_sum_div _ _ _ hpre
  · intro ff hgrid him
    have hT : 0 < ∑ j, EMEP_G lstsq xps trm kx Ss pidirs miter ff j :=
      Finset.sum_pos (fun j _ => Real.exp_pos _) Finset.univ_nonempty
    apply Complex.ext
    · simp only [Complex.ofReal_re]
      simp only [EMEP_S]
      rw [hgrid]
      exact normalize_sum_div_real _ _ _ (mul_ne_zero hT.ne' hcpos.ne')
    · simp only [Complex.ofReal_im]
      exact him.symm
  · intro ff hgrid him
    have hT : 0 < ∑ j, BDM_G qrR solveLin xps trm kx Ss pidirs miter ff j :=
      Finset.sum_pos (fun j _ => Real.exp_pos _) Finset.univ_nonempty
    apply Complex.ext
    · simp only [Complex.ofReal_re]
      simp only [BDM_S]
      rw [hgrid]
      exact normalize_sum_div_real _ _ _ (mul_ne_zero hT.ne' hcpos.ne')
    · simp only [Complex.ofReal_im]
      exact him.symm

/-- At the single-sensor witness input the steering sum collapses to the
weight entry. -/
theorem witSteer (w : Fin 1 → Fin 1 → ℂ) (d : Fin 2) :
    steerSum w witTrm witKx 0 d = w 0 0 := by
  simp [steerSum, witTrm, witKx]

/-- The witness cross-spectrum slice is the identity matrix. -/
theorem witXpsMat : xpsMat witXps 0 = 1 := by
  ext m n
  fin_cases m
  fin_cases n
  simp [xpsMat, witXps, Matrix.one_apply]

/-- The raw EMLM shape at the witness input is the all-ones row. -/
theorem witEraw (d : Fin 2) : EMLM_Eraw witXps witTrm witKx 0 d = 1 := by
  simp only [EMLM_Eraw, witXpsMat, inv_one]
  rw [witSteer (fun m n => (1 : Matrix (Fin 1) (Fin 1) ℂ) m n) d]
  simp [Matrix.one_apply]

/-- Every witness frequency slice is invertible. -/
theorem witGuard : ∀ ff : Fin 1, IsUnit (xpsMat witXps ff).det := by
  intro ff
  rw [Subsingleton.elim ff 0, witXpsMat, Matrix.det_one]
  exact isUnit_one

/-- C1 witness: the normalization invariant instantiated at the concrete
single-sensor input, every hypothesis discharged: all five methods' rows
integrate back to Ss[0, 0] = 1. -/
theorem c1_witness :
    (((2 * Real.pi / ((2 : ℕ) : ℝ) : ℝ) : ℂ) *
      ∑ d, DFTM witXps witTrm witKx witSs witPidirs 0 0 0 d = 1) ∧
    ((EMLM witXps witTrm witKx witSs witPidirs 0 0).map
      (fun S => ((2 * Real.pi / ((2 : ℕ) : ℝ) : ℝ) : ℂ) * ∑ d, S 0 d) =
      Except.ok 1) ∧
    ((IMLM witXps witTrm witKx witSs witPidirs 0 0).map
      (fun S => ((2 * Real.pi / ((2 : ℕ) : ℝ) : ℝ) : ℂ) * ∑ d, S 0 d) =
      Except.ok 1) ∧
    ((((2 * Real.pi / ((2 : ℕ) : ℝ)) *
      ∑ d, EMEP_S witLstsq witXps witTrm witKx witSs witPidirs 0 0 0 d : ℝ) : ℂ) =
      1) ∧
    ((((2 * Real.pi / ((2 : ℕ) : ℝ)) *
      ∑ d, BDM_S witQr witSolve witXps witTrm witKx witSs witPidirs 0 0 0 d : ℝ) : ℂ) =
      1) := by
  obtain ⟨hA, hB, hC, hD, hE⟩ := c1_normalization_invariant witXps witTrm witKx
    witSs witPidirs 0 0 witLstsq witQr witSolve
  have h2 : ((2 : ℕ) : ℝ) = 2 := by norm_num
  have hcne : ((2 * Real.pi / ((2 : ℕ) : ℝ) : ℝ) : ℂ) ≠ 0 := by
    rw [h2]
    rw [Complex.ofReal_ne_zero]
    positivity
  have hgrid : |witPidirs 1 - witPidirs 0| = 2 * Real.pi / ((2 : ℕ) : ℝ) := by
    rw [h2]
    simp only [witPidirs, Matrix.cons_val_one, Matrix.head_cons, Matrix.cons_val_zero]
    rw [sub_neg_eq_add, zero_add]
    rw [show (2 * Real.pi / 2 : ℝ) = Real.pi by ring]
    exact abs_eq_self.mpr Real.pi_pos.le
  have him : (witSs 0 0).im = 0 := by simp [witSs]
  have hSs1 : witSs 0 0 = 1 := rfl
  have hsf : ∀ d, DFTM_Sftmp witXps witTrm witKx 0 d = 1 := by
    intro d
    unfold DFTM_Sftmp
    rw [witSteer]
    simp [witXps]
  have hsfsum : (∑ d, DFTM_Sftmp witXps witTrm witKx 0 d) = 2 := by
    rw [Fin.sum_univ_two, hsf, hsf]
    norm_num
  have hesum : (∑ d, EMLM_Eraw witXps witTrm witKx 0 d) = 2 := by
    rw [Fin.sum_univ_two, witEraw, witEraw]
    norm_num
  have hfne : ((2 * Real.pi / ((2 : ℕ) : ℝ) : ℝ) : ℂ) * (2 : ℂ) ≠ 0 :=
    mul_ne_zero hcne two_ne_zero
  have hokE : EMLM witXps witTrm witKx witSs witPidirs 0 0 =
      Except.ok (fun ff d =>
        witSs 0 ff * (EMLM_Eraw witXps witTrm witKx ff d /
          (((ddirR 2 : ℝ) : ℂ) * ∑ j, EMLM_Eraw witXps witTrm witKx ff j))) := by
    unfold EMLM
    rw [if_pos witGuard]
  have hokI : IMLM witXps witTrm witKx witSs witPidirs 0 0 =
      Except.ok (fun ff d =>
        witSs 0 ff * IMLM_finalE witXps witTrm witKx 0 ff d) := by
    unfold IMLM
    rw [if_pos]
    exact ⟨witGuard, fun ff it hit => absurd hit (Nat.not_lt_zero it)⟩
  refine ⟨?_, ?_, ?_, ?_, ?_⟩
  · have := hA 0 (by rw [hsfsum]; exact hfne)
    rw [this, hSs1]
  · rw [hokE]
    have hval := hB _ hokE 0 (by rw [hesum]; exact hfne)
    simp only [Except.map]
    exact congrArg Except.ok (hval.trans hSs1)
  · rw [hokI]
    have hpre : ((2 * Real.pi / ((2 : ℕ) : ℝ) : ℝ) : ℂ) *
        ∑ d, IMLM_preFinal witXps witTrm witKx 0 0 d ≠ 0 := by
      show ((2 * Real.pi / ((2 : ℕ) : ℝ) : ℝ) : ℂ) *
        ∑ d, EMLM_Eraw witXps witTrm witKx 0 d ≠ 0
      rw [hesum]
      exact hfne
    have hval := hC _ hokI 0 hpre
    simp only [Except.map]
    exact congrArg Except.ok (hval.trans hSs1)
  · have := hD 0 hgrid him
    rw [this, hSs1]
  · have := hE 0 hgrid him
    rw [this, hSs1]

/-! ## C5: realness and non-negativity after the clamp -/

/-- A complex vector with entries fixed by conjugation (exactly real
entries). -/
def RealV {nd : ℕ} (v : Fin nd → ℂ) : Prop :=
  ∀ d, (starRingEnd ℂ) (v d) = v d

/-- Conjugating the steering double sum over a Hermitian weight matrix and
an antisymmetric phase tensor gives the sum back: the (m, n) and (n, m)
terms are conjugate. -/
theorem steerSum_real {szd nf nd : ℕ} (w : Fin szd → Fin szd → ℂ)
    (trm : Fin szd → Fin nf → Fin nd → ℂ)
    (kx : Fin szd → Fin szd → Fin nf → Fin nd → ℝ) (ff : Fin nf) (d : Fin nd)
    (hw : ∀ m n, w n m = (starRingEnd ℂ) (w m n))
    (hkx : ∀ m n, kx n m ff d = -kx m n ff d) :
    (starRingEnd ℂ) (steerSum w trm kx ff d) = steerSum w trm kx ff d := by
  unfold steerSum
  have hterm : ∀ m n : Fin szd,
      (starRingEnd ℂ) (w m n * trm n ff d * (starRingEnd ℂ) (trm m ff d) *
        Complex.exp (Complex.I * ((kx m n ff d : ℝ) : ℂ))) =
      w n m * trm m ff d * (starRingEnd ℂ) (trm n ff d) *
        Complex.exp (Complex.I * ((kx n m ff d : ℝ) : ℂ)) := by
    intro m n
    have hexp : (starRingEnd ℂ) (Complex.exp (Complex.I * ((kx m n ff d : ℝ) : ℂ))) =
        Complex.exp (Complex.I * ((kx n m ff d : ℝ) : ℂ)) := by
      rw [← Complex.exp_conj]
      congr 1
      rw [map_mul, Complex.conj_I, Complex.conj_ofReal, hkx m n]
      push_cast
      ring
    rw [map_mul, map_mul, map_mul, Complex.conj_conj, hexp, hw m n]
    ring
  calc (starRingEnd ℂ) (∑ m, ∑ n,
        w m n * trm n ff d * (starRingEnd ℂ) (trm m ff d) *
          Complex.exp (Complex.I * ((kx m n ff d : ℝ) : ℂ))) =
      ∑ m, ∑ n, (starRingEnd ℂ)
        (w m n * trm n ff d * (starRingEnd ℂ) (trm m ff d) *
          Complex.exp (Complex.I * ((kx m n ff d : ℝ) : ℂ))) := by
        rw [map_sum]
        exact Finset.sum_congr rfl fun m _ => map_sum _ _ _
    _ = ∑ m, ∑ n, w n m * trm m ff d * (starRingEnd ℂ) (trm n ff d) *
        Complex.exp (Complex.I * ((kx n m ff d : ℝ) : ℂ)) :=
        Finset.sum_congr rfl fun m _ => Finset.sum_congr rfl fun n _ => hterm m n
    _ = _ := Finset.sum_comm

/-- The inverse of an entrywise-Hermitian complex matrix is entrywise
Hermitian (numpy's inv of a Hermitian cross spectrum). -/
theorem inv_hermitian_entries {szd : ℕ} (A : Matrix (Fin szd) (Fin szd) ℂ)
    (hA : ∀ m n, A n m = (starRingEnd ℂ) (A m n)) :
    ∀ m n, A⁻¹ n m = (starRingEnd ℂ) (A⁻¹ m n) := by
  have hAH : A.conjTranspose = A := by
    ext m n
    rw [Matrix.conjTranspose_apply, ← starRingEnd_apply, ← hA n m]
  have h1 : (A⁻¹).conjTranspose = A⁻¹ := by
    rw [Matrix.conjTranspose_nonsing_inv, hAH]
  intro m n
  have h2 := congrFun (congrFun h1 m) n
  rw [Matrix.conjTranspose_apply, ← starRingEnd_apply] at h2
  rw [← h2, Complex.conj_conj]

/-- Sums of real-entry vectors are conjugation-fixed. -/
theorem RealV.sum {nd : ℕ} {v : Fin nd → ℂ} (h : RealV v) :
    (starRingEnd ℂ) (∑ d, v d) = ∑ d, v d := by
  rw [map_sum]
  exact Finset.sum_congr rfl fun d _ => h d

/-- The kappa renormalization keeps entries real. -/
theorem normalizeK_real {nd' nd : ℕ} {v : Fin nd → ℂ} (h : RealV v) :
    RealV (normalizeK nd' v) := by
  intro d
  unfold normalizeK
  rw [map_mul, h d, map_div₀, map_one, map_mul, Complex.conj_ofReal, h.sum]

/-- The raw EMLM shape has real entries over a Hermitian cross spectrum and
antisymmetric phase tensor. -/
theorem EMLM_Eraw_real {szd nf nd : ℕ} (xps : Fin szd → Fin szd → Fin nf → ℂ)
    (trm : Fin szd → Fin nf → Fin nd → ℂ)
    (kx : Fin szd → Fin szd → Fin nf → Fin nd → ℝ) (ff : Fin nf)
    (hherm : ∀ m n, xps n m ff = (starRingEnd ℂ) (xps m n ff))
    (hkx : ∀ m n d, kx n m ff d = -kx m n ff d) :
    RealV (EMLM_Eraw xps trm kx ff) := by
  intro d
  simp only [EMLM_Eraw]
  have hwH : ∀ m n, (xpsMat xps ff)⁻¹ n m = (starRingEnd ℂ) ((xpsMat xps ff)⁻¹ m n) :=
    inv_hermitian_entries _ fun m n => hherm m n
  rw [map_div₀, map_one, steerSum_real _ trm kx ff d hwH fun m n => hkx m n d]

/-- Conjugating the backward steering kernel swaps the sensor pair. -/
theorem IMLM_iHtemp_conj {szd nf nd : ℕ} (trm : Fin szd → Fin nf → Fin nd → ℂ)
    (kx : Fin szd → Fin szd → Fin nf → Fin nd → ℝ) (ff : Fin nf) (d : Fin nd)
    (m n : Fin szd) (hkx : ∀ m n, kx n m ff d = -kx m n ff d) :
    (starRingEnd ℂ) (IMLM_iHtemp trm kx ff d m n) = IMLM_iHtemp trm kx ff d n m := by
  unfold IMLM_iHtemp
  have hexp : (starRingEnd ℂ) (Complex.exp (-Complex.I * ((kx m n ff d : ℝ) : ℂ))) =
      Complex.exp (-Complex.I * ((kx n m ff d : ℝ) : ℂ)) := by
    rw [← Complex.exp_conj]
    congr 1
    rw [map_mul, map_neg, Complex.conj_I, Complex.conj_ofReal, hkx m n]
    push_cast
    ring
  rw [map_mul, map_mul, Complex.conj_conj, hexp]
  ring

/-- The rebuilt effective cross spectrum is Hermitian whenever the current
estimate is real. -/
theorem IMLM_ixps_hermitian {szd nf nd : ℕ}
    (trm : Fin szd → Fin nf → Fin nd → ℂ)
    (kx : Fin szd → Fin szd → Fin nf → Fin nd → ℝ) (ff : Fin nf)
    (E : Fin nd → ℂ) (hkx : ∀ m n d, kx n m ff d = -kx m n ff d)
    (hE : RealV E) :
    ∀ m n, (IMLM_ixps trm kx ff E) n m =
      (starRingEnd ℂ) ((IMLM_ixps trm kx ff E) m n) := by
  intro m n
  simp only [IMLM_ixps, Matrix.of_apply]
  rw [map_mul, Complex.conj_ofReal, map_sum]
  congr 1
  refine Finset.sum_congr rfl fun d _ => ?_
  rw [map_mul, hE d, IMLM_iHtemp_conj trm kx ff d m n fun a b => hkx a b d]

/-- Each IMLM refinement step keeps both state vectors real. -/
theorem IMLM_step_real {szd nf nd : ℕ} (xps : Fin szd → Fin szd → Fin nf → ℂ)
    (trm : Fin szd → Fin nf → Fin nd → ℂ)
    (kx : Fin szd → Fin szd → Fin nf → Fin nd → ℝ) (ff : Fin nf)
    (hkx : ∀ m n d, kx n m ff d = -kx m n ff d)
    (hEo : RealV (IMLM_Eo xps trm kx ff))
    (s : (Fin nd → ℂ) × (Fin nd → ℂ)) (hs1 : RealV s.1) (hs2 : RealV s.2) :
    RealV (IMLM_step (IMLM_Eo xps trm kx ff) trm kx ff s).1 ∧
    RealV (IMLM_step (IMLM_Eo xps trm kx ff) trm kx ff s).2 := by
  have hT : RealV (IMLM_stepPre (IMLM_Eo xps trm kx ff) trm kx ff s).2 := by
    show RealV (normalizeK nd _)
    refine normalizeK_real fun d => ?_
    have hwH : ∀ m n, (IMLM_ixps trm kx ff s.1)⁻¹ n m =
        (starRingEnd ℂ) ((IMLM_ixps trm kx ff s.1)⁻¹ m n) :=
      inv_hermitian_entries _ (IMLM_ixps_hermitian trm kx ff s.1 hkx hs1)
    rw [map_div₀, map_one, steerSum_real _ trm kx ff d hwH fun m n => hkx m n d]
  have hpre1 : RealV (IMLM_stepPre (IMLM_Eo xps trm kx ff) trm kx ff s).1 := by
    intro d
    show (starRingEnd ℂ) (s.1 d + ((0.1 : ℝ) : ℂ) * ((IMLM_Eo xps trm kx ff d -
      (IMLM_stepPre (IMLM_Eo xps trm kx ff) trm kx ff s).2 d) + ((0.1 : ℝ) : ℂ) *
        ((IMLM_stepPre (IMLM_Eo xps trm kx ff) trm kx ff s).2 d - s.2 d))) = _
    rw [map_add, map_mul, map_add, map_sub, map_mul, map_sub,
      Complex.conj_ofReal, hs1 d, hs2 d, hEo d, hT d]
    rfl
  exact ⟨normalizeK_real hpre1, hT⟩

/-- The IMLM estimate stays real through every refinement step. -/
theorem IMLM_finalE_real {szd nf nd : ℕ} (xps : Fin szd → Fin szd → Fin nf → ℂ)
    (trm : Fin szd → Fin nf → Fin nd → ℂ)
    (kx : Fin szd → Fin szd → Fin nf → Fin nd → ℝ) (miter : ℕ) (ff : Fin nf)
    (hherm : ∀ m n, xps n m ff = (starRingEnd ℂ) (xps m n ff))
    (hkx : ∀ m n d, kx n m ff d = -kx m n ff d) :
    RealV (IMLM_finalE xps trm kx miter ff) := by
  have hEo : RealV (IMLM_Eo xps trm kx ff) :=
    normalizeK_real (EMLM_Eraw_real xps trm kx ff hherm hkx)
  have hiter : ∀ k,
      RealV (((IMLM_step (IMLM_Eo xps trm kx ff) trm kx ff)^[k]
        (IMLM_Eo xps trm kx ff, IMLM_Eo xps trm kx ff)).1) ∧
      RealV (((IMLM_step (IMLM_Eo xps trm kx ff) trm kx ff)^[k]
        (IMLM_Eo xps trm kx ff, IMLM_Eo xps trm kx ff)).2) := by
    intro k
    induction k with
    | zero => exact ⟨hEo, hEo⟩
    | succ n ih =>
      rw [Function.iterate_succ_apply']
      exact IMLM_step_real xps trm kx ff hkx hEo _ ih.1 ih.2
  exact (hiter miter).1

/-- Entries of the clamped complex spectrum are real and nonnegative as soon
as the un-clamped entry was real: a negative real entry is zeroed by the
lexicographic comparison, and a nonnegative one passes through. -/
theorem clampC_real_nonneg {nf nd : ℕ} (S : Fin nf → Fin nd → ℂ) (f : Fin nf)
    (d : Fin nd) (h : (S f d).im = 0) :
    (dirspec_clampC S f d).im = 0 ∧ 0 ≤ (dirspec_clampC S f d).re := by
  unfold dirspec_clampC
  by_cases hc : cplxLt (S f d) 0
  · rw [if_pos hc]
    exact ⟨Complex.zero_im, le_of_eq Complex.zero_re.symm⟩
  · rw [if_neg hc]
    refine ⟨h, ?_⟩
    by_contra hneg
    push_neg at hneg
    exact hc (Or.inl (by rw [Complex.zero_re]; exact hneg))

/-- Entries of the clamped real spectrum are nonnegative, whatever the
method produced. -/
theorem clampR_nonneg {nf nd : ℕ} (S : Fin nf → Fin nd → ℝ) (f : Fin nf)
    (d : Fin nd) : 0 ≤ dirspec_clampR S f d := by
  unfold dirspec_clampR
  by_cases h : S f d < 0
  · rw [if_pos h]
  · rw [if_neg h]
    push_neg at h
    exact h

/-- C5: every entry the core hands onward after the line-145 clamp is real,
non-negative (and, in exact arithmetic, finite) for every frequency-
direction pair and every estimation method: the complex-valued
DFTM/EMLM/IMLM rows are exactly real over a Hermitian cross spectrum,
antisymmetric phase tensor and real anchor (their imaginary parts are
rounding noise only), negative entries are zeroed, and the real-valued
EMEP/BDM rows are clamped to be non-negative for every behaviour of the
abstracted library solvers. -/
theorem c5_clamped_spectrum_real_nonneg {szd nf nd : ℕ} [NeZero szd]
    [NeZero nf] [NeZero nd] (xps : Fin szd → Fin szd → Fin nf → ℂ)
    (trm : Fin szd → Fin nf → Fin nd → ℂ)
    (kx : Fin szd → Fin szd → Fin nf → Fin nd → ℝ)
    (Ss : Fin szd → Fin nf → ℂ) (pidirs : Fin nd → ℝ) (miter displ : ℕ)
    (lstsq : List (List ℝ) → List ℝ → List ℝ)
    (qrR : ℕ → ℕ → (ℕ → ℕ → ℝ) → (ℕ → ℕ → ℝ))
    (solveLin : ℕ → (ℕ → ℕ → ℝ) → (ℕ → ℝ) → (ℕ → ℝ))
    (hherm : ∀ ff m n, xps n m ff = (starRingEnd ℂ) (xps m n ff))
    (hkx : ∀ ff m n d, kx n m ff d = -kx m n ff d)
    (hSs : ∀ ff, (Ss 0 ff).im = 0) :
    (∀ f d, (dirspec_clampC (DFTM xps trm kx Ss pidirs miter displ) f d).im = 0 ∧
      0 ≤ (dirspec_clampC (DFTM xps trm kx Ss pidirs miter displ) f d).re) ∧
    (∀ S, EMLM xps trm kx Ss pidirs miter displ = Except.ok S →
      ∀ f d, (dirspec_clampC S f d).im = 0 ∧ 0 ≤ (dirspec_clampC S f d).re) ∧
    (∀ S, IMLM xps trm kx Ss pidirs miter displ = Except.ok S →
      ∀ f d, (dirspec_clampC S f d).im = 0 ∧ 0 ≤ (dirspec_clampC S f d).re) ∧
    (∀ f d, 0 ≤ dirspec_clampR
      (EMEP_S lstsq xps trm kx Ss pidirs miter displ) f d) ∧
    (∀ f d, 0 ≤ dirspec_clampR
      (BDM_S qrR solveLin xps trm kx Ss pidirs miter displ) f d) := by
  have hSsConj : ∀ ff, (starRingEnd ℂ) (Ss 0 ff) = Ss 0 ff := fun ff =>
    Complex.conj_eq_iff_im.mpr (hSs ff)
  refine ⟨?_, ?_, ?_, fun f d => clampR_nonneg _ f d, fun f d => clampR_nonneg _ f d⟩
  · intro f d
    refine clampC_real_nonneg _ f d (Complex.conj_eq_iff_im.mp ?_)
    simp only [DFTM]
    have hsf : RealV fun j => DFTM_Sftmp xps trm kx f j := fun j =>
      steerSum_real _ trm kx f j (fun m n => hherm f m n) fun m n => hkx f m n j
    rw [map_mul, hSsConj f, map_div₀, hsf d, map_mul, Complex.conj_ofReal, hsf.sum]
  · intro S hok f d
    have hrows : S = fun ff d =>
        Ss 0 ff * (EMLM_Eraw xps trm kx ff d /
          (((ddirR nd : ℝ) : ℂ) * ∑ j, EMLM_Eraw xps trm kx ff j)) := by
      unfold EMLM at hok
      split at hok
      · exact (Except.ok.inj hok).symm
      · simp at hok
    subst hrows
    refine clampC_real_nonneg _ f d (Complex.conj_eq_iff_im.mp ?_)
    have hE : RealV (EMLM_Eraw xps trm kx f) :=
      EMLM_Eraw_real xps trm kx f (fun m n => hherm f m n) fun m n j => hkx f m n j
    show (starRingEnd ℂ) (Ss 0 f * _) = _
    rw [map_mul, hSsConj f, map_div₀, hE d, map_mul, Complex.conj_ofReal, hE.sum]
  · intro S hok f d
    have hrows : S = fun ff d => Ss 0 ff * IMLM_finalE xps trm kx miter ff d := by
      unfold IMLM at hok
      split at hok
      · exact (Except.ok.inj hok).symm
      · simp at hok
    subst hrows
    refine clampC_real_nonneg _ f d (Complex.conj_eq_iff_im.mp ?_)
    have hE : RealV (IMLM_finalE xps trm kx miter f) :=
      IMLM_finalE_real xps trm kx miter f (fun m n => hherm f m n)
        fun m n j => hkx f m n j
    show (starRingEnd ℂ) (Ss 0 f * _) = _
    rw [map_mul, hSsConj f, hE d]

/-- EMLM succeeds at the witness input with the explicit row array. -/
theorem witEMLM_ok :
    EMLM witXps witTrm witKx witSs witPidirs 0 0 = Except.ok witEMLMout := by
  unfold EMLM
  rw [if_pos witGuard]
  rfl

/-- IMLM succeeds at the witness input with the explicit row array. -/
theorem witIMLM_ok :
    IMLM witXps witTrm witKx witSs witPidirs 0 0 = Except.ok witIMLMout := by
  unfold IMLM
  rw [if_pos]
  · rfl
  · exact ⟨witGuard, fun ff it hit => absurd hit (Nat.not_lt_zero it)⟩

/-- C5 witness: the clamp theorem applied at the concrete single-sensor
input, every hypothesis (Hermitian slice, antisymmetric phases, real
anchor, successful EMLM/IMLM runs) discharged. -/
theorem c5_witness :
    ((dirspec_clampC (DFTM witXps witTrm witKx witSs witPidirs 0 0) 0 0).im = 0 ∧
      0 ≤ (dirspec_clampC (DFTM witXps witTrm witKx witSs witPidirs 0 0) 0 0).re) ∧
    ((dirspec_clampC witEMLMout 0 0).im = 0 ∧
      0 ≤ (dirspec_clampC witEMLMout 0 0).re) ∧
    ((dirspec_clampC witIMLMout 0 0).im = 0 ∧
      0 ≤ (dirspec_clampC witIMLMout 0 0).re) ∧
    (0 ≤ dirspec_clampR
      (EMEP_S witLstsq witXps witTrm witKx witSs witPidirs 0 0) 0 0) ∧
    (0 ≤ dirspec_clampR
      (BDM_S witQr witSolve witXps witTrm witKx witSs witPidirs 0 0) 0 0) := by
  obtain ⟨hA, hB, hC, hD, hE⟩ := c5_clamped_spectrum_real_nonneg witXps witTrm
    witKx witSs witPidirs 0 0 witLstsq witQr witSolve
    (fun ff m n => by simp [witXps])
    (fun ff m n d => by simp [witKx])
    (fun ff => by simp [witSs])
  exact ⟨hA 0 0, hB _ witEMLM_ok 0 0, hC _ witIMLM_ok 0 0, hD 0 0, hE 0 0⟩

/-- C3 witness: the zero-iteration equivalence applied at the concrete
single-sensor input. -/
theorem c3_witness :
    IMLM witXps witTrm witKx witSs witPidirs 0 0 =
      EMLM witXps witTrm witKx witSs witPidirs 0 0 :=
  c3_imlm_zero_iterations_is_emlm witXps witTrm witKx witSs witPidirs 0

/-- C9 witness: the warning characterization applied at the concrete
single-sensor input. -/
theorem c9_amended_witness :
    ((BDM witQr witSolve witXps witTrm witKx witSs witPidirs 1 0).1 = true ↔
      (∑ m, ∑ n, ∑ ff, ∑ d, witKx m n ff d) = 0) ∧
    (BDM witQr witSolve witXps witTrm witKx witSs witPidirs 1 0).2 =
      BDM_S witQr witSolve witXps witTrm witKx witSs witPidirs 1 0 :=
  c9_amended_warning_iff_sum_zero witQr witSolve witXps witTrm witKx witSs
    witPidirs 1 0
